import Mathlib

/-!
# Verification of the SSPAC second-shortest-path core

Shallow embedding of the two core algorithms of the repository:

* `TwoDistanceDijkstra` (src/second_shortest_path/algorithms/dijkstra_two_dist.py)
* `StateExtendedSPFA`   (src/second_shortest_path/algorithms/spfa_extended.py)

Modelling conventions:

* The Python graph is a dict `{node: [(neighbor, weight), ...]}` with dense keys
  `0..n-1`; we embed it as a size `n` together with an adjacency function.
  Dict membership `u in self.graph` becomes `u < n`.
* `float('inf')` sentinels in the distance arrays become `⊤` in `WithTop ℕ`;
  the distance arrays become functions `ℕ → WithTop ℕ` updated with
  `Function.update`.
* Python's `heapq` is a min-heap of `(distance, node, is_second)` tuples ordered
  lexicographically (with `False < True`); we model it as a list kept sorted by
  that order via `List.orderedInsert`, so a pop takes the head, which is the
  lexicographic minimum exactly as `heapq.heappop` returns it.
* `collections.deque` is a FIFO list: push appends on the right, pop takes the
  head.
* The `while` loops run for an explicit amount of fuel via `Function.iterate`
  of a one-iteration `step` function; a `step` on a finished state (empty
  queue, or `halted` after the early-termination `break`) is the identity.
  Termination (existence of enough fuel) is proved separately.
* `ValueError` for invalid nodes becomes `Except.error` with a `NodeError`
  payload recording which argument was out of range; the mutable statistics
  counters of an algorithm instance are threaded explicitly: a call takes the
  instance's current counters and returns the result together with the
  counters after the call.
-/

/-- Distances as stored in the Python `d1`/`d2` arrays: a natural number or
the `float('inf')` sentinel. -/
abbrev WDist := WithTop ℕ

/-- The return conversion `d1[target] if d1[target] != INF else None`. -/
def distToOpt : WDist → Option ℕ
  | ⊤ => none
  | (k : ℕ) => some k

/-- The Python adjacency dict `{node: [(neighbor, weight), ...]}` with dense
keys `0..n-1`: `n = len(graph)` and `adj u` is the list `graph[u]` for
`u < n`. -/
structure Graph where
  n : ℕ
  adj : ℕ → List (ℕ × ℕ)

/-- A well-formed input graph as described by the spec: every edge goes to a
node in `[0, n)` and has a positive integer weight. -/
def Graph.WellFormed (g : Graph) : Prop :=
  ∀ u, u < g.n → ∀ e ∈ g.adj u, e.1 < g.n ∧ 1 ≤ e.2

/-- Walks in the graph: `Walk g u v L` holds when there is a walk from `u`
to `v` of total edge weight `L` using edges of the adjacency structure. -/
inductive Walk (g : Graph) (src : ℕ) : ℕ → ℕ → Prop
  | nil : Walk g src src 0
  | cons {u L} {e : ℕ × ℕ} (h : Walk g src u L) (he : e ∈ g.adj u) :
      Walk g src e.1 (L + e.2)

/-- The `ValueError` raised for an out-of-range query endpoint. -/
inductive NodeError
  | invalidSource (id : ℕ)
  | invalidTarget (id : ℕ)
  deriving DecidableEq

namespace TwoDistanceDijkstra

/-- Heap entry `(distance, node, is_second)` as pushed on the Python heap. -/
abbrev Entry := ℕ × ℕ × Bool

/-- Numeric value of a Bool; Python orders `False < True` inside tuples. -/
def boolVal (b : Bool) : ℕ := cond b 1 0

/-- The lexicographic tuple order used by `heapq` on
`(distance, node, is_second)`. -/
def entry_le (a b : Entry) : Prop :=
  a.1 < b.1 ∨ (a.1 = b.1 ∧ (a.2.1 < b.2.1 ∨ (a.2.1 = b.2.1 ∧ boolVal a.2.2 ≤ boolVal b.2.2)))

instance : DecidableRel entry_le := fun a b => by
  unfold entry_le; infer_instance

instance : IsTotal Entry entry_le :=
  ⟨fun a b => by unfold entry_le; omega⟩

instance : IsTrans Entry entry_le :=
  ⟨fun a b c => by unfold entry_le; omega⟩

/-- The persistent statistics counters of a `TwoDistanceDijkstra` instance. -/
structure Stats where
  pq_operations : ℕ
  edge_relaxations : ℕ
  iterations : ℕ
  deriving DecidableEq

/-- The state of one `find_second_shortest` call: the `d1`/`d2` arrays, the
heap, the statistics counters, and whether the early-termination `break`
has run. -/
structure State where
  d1 : ℕ → WDist
  d2 : ℕ → WDist
  pq : List Entry
  halted : Bool
  pq_operations : ℕ
  edge_relaxations : ℕ
  iterations : ℕ

/-- A push: `heapq.heappush(pq, e)` plus `self._pq_operations += 1`. -/
def push (e : Entry) (s : State) : State :=
  { s with pq := s.pq.orderedInsert entry_le e, pq_operations := s.pq_operations + 1 }

/-- The method `_relax_edge(u, v, weight, current_dist, d1, d2, pq)` (the source's `u`
argument is unused except for logging). -/
def relax_edge (v w : ℕ) (dist : ℕ) (s : State) : State :=
  let s0 := { s with edge_relaxations := s.edge_relaxations + 1 }
  let nd := dist + w
  if (nd : WDist) < s0.d1 v then
    -- the old shortest becomes the second shortest
    let old := s0.d1 v
    let s1 := { s0 with d2 := Function.update s0.d2 v old,
                        d1 := Function.update s0.d1 v (nd : WDist) }
    let s2 := push (nd, v, false) s1
    if h : old = ⊤ then s2 else push (old.untop h, v, true) s2
  else if s0.d1 v < (nd : WDist) ∧ (nd : WDist) < s0.d2 v then
    push (nd, v, true) { s0 with d2 := Function.update s0.d2 v (nd : WDist) }
  else s0

/-- The state right after the initialization part of `find_second_shortest`:
`d1[source] = 0`, one entry `(0, source, False)` pushed, counters reset and
the initial push counted. -/
def init (source : ℕ) : State :=
  { d1 := Function.update (fun _ => (⊤ : WDist)) source (0 : ℕ)
    d2 := fun _ => (⊤ : WDist)
    pq := [(0, source, false)]
    halted := false
    pq_operations := 1
    edge_relaxations := 0
    iterations := 0 }

/-- One iteration of the `while pq:` loop.  `stopEarly = true` is the source
code (which `break`s at a pop of `(target, SECONDARY)`); `stopEarly = false`
is the exhaustive variant used to state that the early termination does not
change the answer. -/
def step (stopEarly : Bool) (g : Graph) (target : ℕ) (s : State) : State :=
  if s.halted = true then s else
  match s.pq with
  | [] => s
  | (dist, u, is_second) :: rest =>
    let s1 : State := { s with pq := rest, iterations := s.iterations + 1,
                               pq_operations := s.pq_operations + 1 }
    if stopEarly = true ∧ u = target ∧ is_second = true then
      { s1 with halted := true }
    else if is_second = true ∧ s1.d2 u < (dist : WDist) then s1
    else if is_second = false ∧ s1.d1 u < (dist : WDist) then s1
    else if u < g.n then
      (g.adj u).foldl (fun t e => relax_edge e.1 e.2 dist t) s1
    else s1

/-- The loop has exited: either the queue is exhausted or the `break` ran. -/
def done (s : State) : Prop := s.halted = true ∨ s.pq = []

instance : DecidablePred done := fun s => by unfold done; infer_instance

/-- The method `find_second_shortest(source, target)` on an instance whose counters
currently hold `st`: validates the endpoints, runs the search for `fuel`
iterations, and returns the result paired with the instance's counters after
the call. -/
def find_second_shortest (g : Graph) (source target : ℕ) (st : Stats) (fuel : ℕ) :
    Except NodeError (Option ℕ × Option ℕ) × Stats :=
  if ¬ source < g.n then (.error (.invalidSource source), st)
  else if ¬ target < g.n then (.error (.invalidTarget target), st)
  else
    let sF := (step true g target)^[fuel] (init source)
    (.ok (distToOpt (sF.d1 target), distToOpt (sF.d2 target)),
      ⟨sF.pq_operations, sF.edge_relaxations, sF.iterations⟩)

/-- The method `get_statistics()`. -/
def get_statistics (st : Stats) : List (String × ℕ) :=
  [("pq_operations", st.pq_operations),
   ("edge_relaxations", st.edge_relaxations),
   ("iterations", st.iterations)]

end TwoDistanceDijkstra

namespace StateExtendedSPFA

/-- FIFO queue entry `(node, distance, is_second)` as appended in the
Python source. -/
abbrev Entry := ℕ × ℕ × Bool

/-- The persistent statistics counters of a `StateExtendedSPFA` instance. -/
structure Stats where
  enqueue_operations : ℕ
  dequeue_operations : ℕ
  push_count : ℕ
  pop_count : ℕ
  edge_relaxations : ℕ
  d1_updates : ℕ
  d2_updates : ℕ
  iterations : ℕ
  deriving DecidableEq

/-- The state of one `find_second_shortest` call: distance arrays, FIFO
queue, the two per-node pending flags `in_queue[v][0]`/`in_queue[v][1]`,
and the counters. -/
structure State where
  d1 : ℕ → WDist
  d2 : ℕ → WDist
  queue : List Entry
  inq1 : ℕ → Bool
  inq2 : ℕ → Bool
  enqueue_operations : ℕ
  dequeue_operations : ℕ
  push_count : ℕ
  pop_count : ℕ
  edge_relaxations : ℕ
  d1_updates : ℕ
  d2_updates : ℕ
  iterations : ℕ

/-- The method `_relax_edge(u, v, weight, current_dist, d1, d2, queue, in_queue)`. -/
def relax_edge (v w : ℕ) (dist : ℕ) (s : State) : State :=
  let s0 := { s with edge_relaxations := s.edge_relaxations + 1 }
  let nd := dist + w
  if (nd : WDist) < s0.d1 v then
    -- the old shortest becomes the second shortest
    let old := s0.d1 v
    let s1 := { s0 with d2 := Function.update s0.d2 v old,
                        d1 := Function.update s0.d1 v (nd : WDist),
                        d1_updates := s0.d1_updates + 1 }
    let s2 :=
      if s1.inq1 v = false then
        { s1 with queue := s1.queue ++ [(v, nd, false)],
                  inq1 := Function.update s1.inq1 v true,
                  enqueue_operations := s1.enqueue_operations + 1,
                  push_count := s1.push_count + 1 }
      else s1
    -- `if d2[v] != float('inf') and not in_queue[v][1]:`; here `d2[v] = old`,
    -- and the nested `if old_d1 != float('inf')` guard of the source is
    -- subsumed by the outer `d2[v] != float('inf')` test.
    if h : old = ⊤ then s2
    else if s2.inq2 v = false then
      { s2 with queue := s2.queue ++ [(v, old.untop h, true)],
                inq2 := Function.update s2.inq2 v true,
                enqueue_operations := s2.enqueue_operations + 1,
                push_count := s2.push_count + 1,
                d2_updates := s2.d2_updates + 1 }
    else s2
  else if s0.d1 v < (nd : WDist) ∧ (nd : WDist) < s0.d2 v then
    let s1 := { s0 with d2 := Function.update s0.d2 v (nd : WDist),
                        d2_updates := s0.d2_updates + 1 }
    if s1.inq2 v = false then
      { s1 with queue := s1.queue ++ [(v, nd, true)],
                inq2 := Function.update s1.inq2 v true,
                enqueue_operations := s1.enqueue_operations + 1,
                push_count := s1.push_count + 1 }
    else s1
  else s0

/-- The state right after the initialization part of `find_second_shortest`. -/
def init (source : ℕ) : State :=
  { d1 := Function.update (fun _ => (⊤ : WDist)) source (0 : ℕ)
    d2 := fun _ => (⊤ : WDist)
    queue := [(source, 0, false)]
    inq1 := Function.update (fun _ => false) source true
    inq2 := fun _ => false
    enqueue_operations := 1
    dequeue_operations := 0
    push_count := 1
    pop_count := 0
    edge_relaxations := 0
    d1_updates := 0
    d2_updates := 0
    iterations := 0 }

/-- One iteration of the `while queue:` loop. -/
def step (g : Graph) (s : State) : State :=
  match s.queue with
  | [] => s
  | (u, dist, is_second) :: rest =>
    let s1 : State := { s with queue := rest, iterations := s.iterations + 1,
                               dequeue_operations := s.dequeue_operations + 1,
                               pop_count := s.pop_count + 1 }
    let s2 : State :=
      if is_second = true then { s1 with inq2 := Function.update s1.inq2 u false }
      else { s1 with inq1 := Function.update s1.inq1 u false }
    if is_second = true ∧ s2.d2 u < (dist : WDist) then s2
    else if is_second = false ∧ s2.d1 u < (dist : WDist) then s2
    else if u < g.n then
      (g.adj u).foldl (fun t e => relax_edge e.1 e.2 dist t) s2
    else s2

/-- The loop has exited: the queue is exhausted. -/
def done (s : State) : Prop := s.queue = []

instance : DecidablePred done := fun s => by unfold done; infer_instance

/-- The method `find_second_shortest(source, target)` on an instance whose counters
currently hold `st`. -/
def find_second_shortest (g : Graph) (source target : ℕ) (st : Stats) (fuel : ℕ) :
    Except NodeError (Option ℕ × Option ℕ) × Stats :=
  if ¬ source < g.n then (.error (.invalidSource source), st)
  else if ¬ target < g.n then (.error (.invalidTarget target), st)
  else
    let sF := (step g)^[fuel] (init source)
    (.ok (distToOpt (sF.d1 target), distToOpt (sF.d2 target)),
      ⟨sF.enqueue_operations, sF.dequeue_operations, sF.push_count, sF.pop_count,
       sF.edge_relaxations, sF.d1_updates, sF.d2_updates, sF.iterations⟩)

/-- The method `get_statistics()`. -/
def get_statistics (st : Stats) : List (String × ℕ) :=
  [("enqueue_operations", st.enqueue_operations),
   ("dequeue_operations", st.dequeue_operations),
   ("push_count", st.push_count),
   ("pop_count", st.pop_count),
   ("edge_relaxations", st.edge_relaxations),
   ("d1_updates", st.d1_updates),
   ("d2_updates", st.d2_updates),
   ("iterations", st.iterations)]

end StateExtendedSPFA

/-! ### Concrete example graphs used as witnesses and failing inputs -/

/-- Directed graph on nodes `0..3` with edges `0→2 (1)`, `0→1 (10)`,
`1→3 (1)`, `2→1 (2)`.  The shortest walk `0→3` is `0→2→1→3` of length 4;
the only other walk is `0→1→3` of length 11. -/
def gA : Graph :=
  { n := 4
    adj := fun u =>
      match u with
      | 0 => [(2, 1), (1, 10)]
      | 1 => [(3, 1)]
      | 2 => [(1, 2)]
      | _ => [] }

/-- Directed graph on nodes `0..3` with edges `0→1 (10)`, `0→2 (1)`,
`0→3 (1)`, `2→1 (12)`, `3→1 (2)`.  During the SPFA run the label `d2[1]`
is assigned twice (`inf→13`, then `13→10` by the demotion in the
`new_dist < d1[v]` branch while the SECONDARY state of node 1 is pending). -/
def gB : Graph :=
  { n := 4
    adj := fun u =>
      match u with
      | 0 => [(1, 10), (2, 1), (3, 1)]
      | 2 => [(1, 12)]
      | 3 => [(1, 2)]
      | _ => [] }

/-- Bidirected triangle on nodes `0..2`, all weights 1: from 0 to 1 the
shortest walk has length 1 and the second shortest length 2. -/
def gC : Graph :=
  { n := 3
    adj := fun u =>
      match u with
      | 0 => [(1, 1), (2, 1)]
      | 1 => [(0, 1), (2, 1)]
      | 2 => [(0, 1), (1, 1)]
      | _ => [] }

/-- The disconnected graph of spec scenario 2:
`{0:[(1,1)], 1:[(0,1),(2,1)], 2:[(1,1)], 3:[(4,1)], 4:[(3,1)]}`.
Nodes 3 and 4 are unreachable from node 0. -/
def gD : Graph :=
  { n := 5
    adj := fun u =>
      match u with
      | 0 => [(1, 1)]
      | 1 => [(0, 1), (2, 1)]
      | 2 => [(1, 1)]
      | 3 => [(4, 1)]
      | 4 => [(3, 1)]
      | _ => [] }

/-- The zero statistics records used in concrete runs. -/
def dStats0 : TwoDistanceDijkstra.Stats := ⟨0, 0, 0⟩

/-- The zero statistics record for the SPFA instance. -/
def sStats0 : StateExtendedSPFA.Stats := ⟨0, 0, 0, 0, 0, 0, 0, 0⟩

/-- The per-node label invariant of §3 of the spec: whenever the secondary
label is set, the primary label is strictly below it (in particular the
primary label is set as well). -/
def SecondAbove (d1 d2 : ℕ → WDist) : Prop :=
  ∀ v, d2 v ≠ ⊤ → d1 v < d2 v

/-- Soundness of the labels with respect to the graph: every finite label
value is the length of an actual walk from the source. -/
def LabelsSound (g : Graph) (src : ℕ) (d : ℕ → WDist) : Prop :=
  ∀ v k, d v = ((k : ℕ) : WDist) → Walk g src v k

/-- Soundness of Dijkstra heap entries: every entry records the length of
an actual walk from the source to its node. -/
def DEntriesSound (g : Graph) (src : ℕ) (l : List TwoDistanceDijkstra.Entry) : Prop :=
  ∀ e ∈ l, Walk g src e.2.1 e.1

/-- Soundness of SPFA queue entries (node first, then distance). -/
def SEntriesSound (g : Graph) (src : ℕ) (l : List StateExtendedSPFA.Entry) : Prop :=
  ∀ e ∈ l, Walk g src e.1 e.2.1

/-- Indicator of an unset (`inf`) label, used by the termination measure. -/
def topIndicator (x : WDist) : ℕ := if x = ⊤ then 1 else 0

/-- Number of unset labels of a label array over the graph's nodes. -/
def labelTop (g : Graph) (d : ℕ → WDist) : ℕ :=
  ∑ x in Finset.range g.n, topIndicator (d x)

/-- Total finite mass of a label array over the graph's nodes. -/
def labelSum (g : Graph) (d : ℕ → WDist) : ℕ :=
  ∑ x in Finset.range g.n, (d x).untop' 0

/-- The label part of the termination measure: labels only ever decrease,
and every decrease either resolves an unset label or lowers the finite
mass. -/
def labelMeasure (g : Graph) (d1 d2 : ℕ → WDist) : ℕ × ℕ :=
  (labelTop g d1 + labelTop g d2, labelSum g d1 + labelSum g d2)

/-- Strict lexicographic order on pairs of naturals. -/
def PairLt (a b : ℕ × ℕ) : Prop := a.1 < b.1 ∨ (a.1 = b.1 ∧ a.2 < b.2)

/-- Strict lexicographic order on (label measure, queue length). -/
def MeasLt (a b : (ℕ × ℕ) × ℕ) : Prop := PairLt a.1 b.1 ∨ (a.1 = b.1 ∧ a.2 < b.2)

/-- The termination measure of a Dijkstra state. -/
def dmeasure (g : Graph) (s : TwoDistanceDijkstra.State) : (ℕ × ℕ) × ℕ :=
  (labelMeasure g s.d1 s.d2, s.pq.length)

/-- The termination measure of an SPFA state. -/
def smeasure (g : Graph) (s : StateExtendedSPFA.State) : (ℕ × ℕ) × ℕ :=
  (labelMeasure g s.d1 s.d2, s.queue.length)

/-- The head of the heap is an entry for `(target, SECONDARY)` and the
loop has not halted: this is exactly the situation in which the next
Dijkstra iteration runs the early-termination `break`. -/
def breakHeadB (tgt : ℕ) (s : TwoDistanceDijkstra.State) : Bool :=
  !s.halted &&
    (match s.pq with
     | (_, u, true) :: _ => u == tgt
     | _ => false)

/-- The run invariant of the early-stopping Dijkstra search: the heap is
sorted, labels satisfy the ordering invariant, every SECONDARY heap entry
dominates the live `d2` of its node, and while the loop has not halted the
live `d2[target]`, when finite, is still present as a heap entry. -/
def DStateInv (g : Graph) (tgt : ℕ) (s : TwoDistanceDijkstra.State) : Prop :=
  List.Sorted TwoDistanceDijkstra.entry_le s.pq
  ∧ SecondAbove s.d1 s.d2
  ∧ (∀ e ∈ s.pq, e.2.2 = true → s.d2 e.2.1 ≤ ((e.1 : ℕ) : WDist))
  ∧ (s.halted = false → ∀ k : ℕ, s.d2 tgt = ((k : ℕ) : WDist) →
      ((k, tgt, true) : TwoDistanceDijkstra.Entry) ∈ s.pq)

/-- The situation after the first pop of a `(target, SECONDARY)` entry at
distance `D`: the target's labels are frozen at `a < D`, and every
remaining heap entry is at distance at least `D`.  Preserved by the
exhaustive loop, this shows late iterations cannot change the answer. -/
def DAfter (tgt : ℕ) (a : WDist) (D : ℕ) (s : TwoDistanceDijkstra.State) : Prop :=
  s.d1 tgt = a ∧ s.d2 tgt = ((D : ℕ) : WDist) ∧ a < ((D : ℕ) : WDist)
  ∧ (∀ e ∈ s.pq, D ≤ e.1) ∧ SecondAbove s.d1 s.d2

/-! ### Theorems -/

/-- A property preserved by each fold step is preserved by the fold. -/
theorem foldl_preserves {α β : Type _} {f : β → α → β} {P : β → Prop}
    (h : ∀ b a, P b → P (f b a)) : ∀ (l : List α) (b : β), P b → P (l.foldl f b)
  | [], _, hb => hb
  | a :: l, b, hb => foldl_preserves h l (f b a) (h b a hb)

/-- Conversion `distToOpt` returns `some` exactly on finite distances. -/
theorem distToOpt_eq_some {x : WDist} {k : ℕ} :
    distToOpt x = some k ↔ x = ((k : ℕ) : WDist) := by
  cases x using WithTop.recTopCoe with
  | top => simp [distToOpt]
  | coe a => simp [distToOpt]

/-- Conversion `distToOpt` returns `none` exactly on the infinite sentinel. -/
theorem distToOpt_eq_none {x : WDist} : distToOpt x = none ↔ x = ⊤ := by
  cases x using WithTop.recTopCoe with
  | top => simp [distToOpt]
  | coe a => simp [distToOpt]

/-- Every distance is either the sentinel or a finite natural. -/
theorem wdist_cases (x : WDist) : x = ⊤ ∨ ∃ k : ℕ, x = ((k : ℕ) : WDist) := by
  cases x using WithTop.recTopCoe with
  | top => exact Or.inl rfl
  | coe a => exact Or.inr ⟨a, by rw [Nat.cast_withTop]⟩

/-- Strict order on finite distances is the order on the naturals. -/
theorem wcast_lt {a b : ℕ} : ((a : ℕ) : WDist) < ((b : ℕ) : WDist) ↔ a < b := by
  rw [Nat.cast_withTop, Nat.cast_withTop]
  exact WithTop.coe_lt_coe

/-- A finite distance is never the sentinel. -/
theorem wcast_ne_top (a : ℕ) : ((a : ℕ) : WDist) ≠ ⊤ := by
  rw [Nat.cast_withTop]
  exact WithTop.coe_ne_top

/-- Finite distances are equal exactly when their values are. -/
theorem wcast_inj {a b : ℕ} : ((a : ℕ) : WDist) = ((b : ℕ) : WDist) ↔ a = b := by
  rw [Nat.cast_withTop, Nat.cast_withTop]
  exact WithTop.coe_eq_coe

/-- Claim C1 (code bug, demonstration).  On the graph `gA` with query
`(0, 3)` the two algorithms disagree: `TwoDistanceDijkstra` returns
`(4, 11)` (the correct distances: the walk `0→2→1→3` has length 4), while
`StateExtendedSPFA` returns `(11, None)`.  The SPFA loses the improvement
`d1[1] = 3` because node 1's PRIMARY state was already pending in the queue
when the improvement arrived, so no fresh queue entry was added, and the
stale entry `(1, 10, PRIMARY)` is discarded on dequeue without relaxing
node 1's edges at distance 3.  Both runs are finished (fuel 30 exhausts the
queues). -/
theorem c1_cross_algorithm_disagreement :
    (TwoDistanceDijkstra.find_second_shortest gA 0 3 dStats0 30).1 = .ok (some 4, some 11)
    ∧ (StateExtendedSPFA.find_second_shortest gA 0 3 sStats0 30).1 = .ok (some 11, none)
    ∧ (TwoDistanceDijkstra.find_second_shortest gA 0 3 dStats0 30).1
        ≠ (StateExtendedSPFA.find_second_shortest gA 0 3 sStats0 30).1
    ∧ Walk gA 0 3 4
    ∧ TwoDistanceDijkstra.done ((TwoDistanceDijkstra.step true gA 3)^[30] (TwoDistanceDijkstra.init 0))
    ∧ StateExtendedSPFA.done ((StateExtendedSPFA.step gA)^[30] (StateExtendedSPFA.init 0)) := by
  refine ⟨rfl, rfl, ?_, ?_, by decide, by decide⟩
  · intro h
    rw [show (TwoDistanceDijkstra.find_second_shortest gA 0 3 dStats0 30).1
          = .ok (some 4, some 11) from rfl] at h
    rw [show (StateExtendedSPFA.find_second_shortest gA 0 3 sStats0 30).1
          = .ok (some 11, none) from rfl] at h
    simp at h
  · have w1 : Walk gA 0 2 1 := by
      have := Walk.cons (e := (2, 1)) (Walk.nil : Walk gA 0 0 0) (by decide)
      simpa using this
    have w2 : Walk gA 0 1 3 := by
      have := Walk.cons (e := (1, 2)) w1 (by decide)
      simpa using this
    have w3 : Walk gA 0 3 4 := by
      have := Walk.cons (e := (3, 1)) w2 (by decide)
      simpa using this
    exact w3

/-- Claim C7 (code bug, demonstration).  In the SPFA run on `gB` with source 0,
the label `d2[1]` is assigned twice with changing values (`inf → 13` after
iteration 3, then `13 → 10` after iteration 4, by the demotion in the
`new_dist < d1[v]` branch, which happens while the SECONDARY state of
node 1 is still pending in the queue), yet the completed call reports
`d2_updates = 1`: the demotion's `d2` assignment is not counted because the
increment sits inside the `not in_queue[v][1]` enqueue guard. -/
theorem c7_d2_updates_undercount :
    (StateExtendedSPFA.init 0).d2 1 = ⊤
    ∧ ((StateExtendedSPFA.step gB)^[3] (StateExtendedSPFA.init 0)).d2 1 = ((13 : ℕ) : WDist)
    ∧ ((StateExtendedSPFA.step gB)^[4] (StateExtendedSPFA.init 0)).d2 1 = ((10 : ℕ) : WDist)
    ∧ (StateExtendedSPFA.find_second_shortest gB 0 1 sStats0 30).2.d2_updates = 1
    ∧ StateExtendedSPFA.done ((StateExtendedSPFA.step gB)^[30] (StateExtendedSPFA.init 0)) := by
  exact ⟨rfl, rfl, rfl, rfl, by decide⟩

/-- Claim C8 (counterexample).  The claim asserts
`TwoDistanceDijkstra.get_statistics` returns at least four entries with
separate push and pop counts; in fact the returned mapping of a completed
call has exactly three entries (`pq_operations` combines pushes and pops). -/
theorem c8_statistics_not_four_entries :
    ¬ 4 ≤ (TwoDistanceDijkstra.get_statistics
        ((TwoDistanceDijkstra.find_second_shortest gC 0 1 dStats0 40).2)).length := by
  decide

/-- Claim C8 (amended): `TwoDistanceDijkstra.get_statistics` returns a
string-to-integer mapping with exactly three entries — a combined
priority-queue operation count (pushes plus pops in one counter), an edge
relaxation count, and a main-loop iteration count — and the edge relaxation
count increments exactly once per edge traversal, whether or not any label
changes. -/
theorem c8_statistics_shape_and_relaxation_count :
    (∀ st : TwoDistanceDijkstra.Stats,
        (TwoDistanceDijkstra.get_statistics st).map Prod.fst
          = ["pq_operations", "edge_relaxations", "iterations"]
        ∧ (TwoDistanceDijkstra.get_statistics st).length = 3)
    ∧ (∀ (v w dist : ℕ) (s : TwoDistanceDijkstra.State),
        (TwoDistanceDijkstra.relax_edge v w dist s).edge_relaxations
          = s.edge_relaxations + 1) := by
  refine ⟨fun st => ⟨rfl, rfl⟩, fun v w dist s => ?_⟩
  simp only [TwoDistanceDijkstra.relax_edge, TwoDistanceDijkstra.push]
  split_ifs <;> rfl

/-- Claim C9: for valid queries, the entire outcome of a call — result and
returned statistics — does not depend on the counter values left over from
earlier calls on the same instance: every counter is reset at the start of
the call. -/
theorem c9_statistics_reset (g : Graph) (src tgt : ℕ)
    (stD stD' : TwoDistanceDijkstra.Stats) (stS stS' : StateExtendedSPFA.Stats)
    (fuel : ℕ) (hs : src < g.n) (ht : tgt < g.n) :
    TwoDistanceDijkstra.find_second_shortest g src tgt stD fuel
      = TwoDistanceDijkstra.find_second_shortest g src tgt stD' fuel
    ∧ StateExtendedSPFA.find_second_shortest g src tgt stS fuel
      = StateExtendedSPFA.find_second_shortest g src tgt stS' fuel := by
  constructor
  · unfold TwoDistanceDijkstra.find_second_shortest
    rw [if_neg (by omega), if_neg (by omega), if_neg (by omega), if_neg (by omega)]
  · unfold StateExtendedSPFA.find_second_shortest
    rw [if_neg (by omega), if_neg (by omega), if_neg (by omega), if_neg (by omega)]

/-- Witness for C9 at a concrete valid query. -/
theorem c9_statistics_reset_witness :
    (0 < gC.n ∧ 1 < gC.n)
    ∧ TwoDistanceDijkstra.find_second_shortest gC 0 1 ⟨5, 6, 7⟩ 40
        = TwoDistanceDijkstra.find_second_shortest gC 0 1 dStats0 40 :=
  ⟨⟨by decide, by decide⟩,
    (c9_statistics_reset gC 0 1 ⟨5, 6, 7⟩ dStats0 sStats0 sStats0 40
      (by decide) (by decide)).1⟩

/-- Claim C10: if a call raises the invalid-node error, the instance's
statistics counters are left entirely unchanged (the node validation
precedes the counter reset), in both algorithms. -/
theorem c10_error_leaves_statistics (g : Graph) (src tgt : ℕ)
    (stD : TwoDistanceDijkstra.Stats) (stS : StateExtendedSPFA.Stats)
    (fuel : ℕ) (h : g.n ≤ src ∨ g.n ≤ tgt) :
    (TwoDistanceDijkstra.find_second_shortest g src tgt stD fuel).2 = stD
    ∧ (StateExtendedSPFA.find_second_shortest g src tgt stS fuel).2 = stS := by
  constructor
  · unfold TwoDistanceDijkstra.find_second_shortest
    rcases Nat.lt_or_ge src g.n with hs | hs
    · rw [if_neg (by omega), if_pos (by omega)]
    · rw [if_pos (by omega)]
  · unfold StateExtendedSPFA.find_second_shortest
    rcases Nat.lt_or_ge src g.n with hs | hs
    · rw [if_neg (by omega), if_pos (by omega)]
    · rw [if_pos (by omega)]

/-- Witness for C10 at a concrete invalid query (`source = 10` on a 4-node
graph). -/
theorem c10_error_leaves_statistics_witness :
    (gA.n ≤ 10 ∨ gA.n ≤ 0)
    ∧ (TwoDistanceDijkstra.find_second_shortest gA 10 0 ⟨5, 6, 7⟩ 30).2 = ⟨5, 6, 7⟩ :=
  ⟨Or.inl (by decide),
    (c10_error_leaves_statistics gA 10 0 ⟨5, 6, 7⟩ sStats0 30 (Or.inl (by decide))).1⟩

/-- Claim C4: in both algorithms, `find_second_shortest` fails with the
invalid-node error exactly when `source` or `target` is outside `[0, n)`
(for the dense graphs of the contract, dict membership `u in self.graph`
is `u < n`); moreover the error is raised before any search work: on an
invalid query the call's outcome is the same as with zero loop fuel.
Unreachability or odd-but-indexable adjacency contents never produce an
error: on valid endpoints the call always returns `.ok`. -/
theorem c4_invalid_node_error_iff (g : Graph) (src tgt : ℕ)
    (stD : TwoDistanceDijkstra.Stats) (stS : StateExtendedSPFA.Stats) (fuel : ℕ) :
    ((∃ e, (TwoDistanceDijkstra.find_second_shortest g src tgt stD fuel).1 = .error e)
        ↔ g.n ≤ src ∨ g.n ≤ tgt)
    ∧ ((∃ e, (StateExtendedSPFA.find_second_shortest g src tgt stS fuel).1 = .error e)
        ↔ g.n ≤ src ∨ g.n ≤ tgt)
    ∧ (g.n ≤ src ∨ g.n ≤ tgt →
        TwoDistanceDijkstra.find_second_shortest g src tgt stD fuel
          = TwoDistanceDijkstra.find_second_shortest g src tgt stD 0
        ∧ StateExtendedSPFA.find_second_shortest g src tgt stS fuel
          = StateExtendedSPFA.find_second_shortest g src tgt stS 0) := by
  refine ⟨?_, ?_, ?_⟩
  · unfold TwoDistanceDijkstra.find_second_shortest
    rcases Nat.lt_or_ge src g.n with hs | hs
    · rcases Nat.lt_or_ge tgt g.n with ht | ht
      · rw [if_neg (by omega), if_neg (by omega)]
        simp only []
        constructor
        · rintro ⟨e, he⟩; exact absurd he (by simp)
        · intro h; omega
      · rw [if_neg (by omega), if_pos (by omega)]
        exact ⟨fun _ => Or.inr ht, fun _ => ⟨.invalidTarget tgt, rfl⟩⟩
    · rw [if_pos (by omega)]
      exact ⟨fun _ => Or.inl hs, fun _ => ⟨.invalidSource src, rfl⟩⟩
  · unfold StateExtendedSPFA.find_second_shortest
    rcases Nat.lt_or_ge src g.n with hs | hs
    · rcases Nat.lt_or_ge tgt g.n with ht | ht
      · rw [if_neg (by omega), if_neg (by omega)]
        simp only []
        constructor
        · rintro ⟨e, he⟩; exact absurd he (by simp)
        · intro h; omega
      · rw [if_neg (by omega), if_pos (by omega)]
        exact ⟨fun _ => Or.inr ht, fun _ => ⟨.invalidTarget tgt, rfl⟩⟩
    · rw [if_pos (by omega)]
      exact ⟨fun _ => Or.inl hs, fun _ => ⟨.invalidSource src, rfl⟩⟩
  · intro h
    constructor
    · unfold TwoDistanceDijkstra.find_second_shortest
      rcases Nat.lt_or_ge src g.n with hs | hs
      · rw [if_neg (by omega), if_pos (by omega), if_neg (by omega), if_pos (by omega)]
      · rw [if_pos (by omega), if_pos (by omega)]
    · unfold StateExtendedSPFA.find_second_shortest
      rcases Nat.lt_or_ge src g.n with hs | hs
      · rw [if_neg (by omega), if_pos (by omega), if_neg (by omega), if_pos (by omega)]
      · rw [if_pos (by omega), if_pos (by omega)]

/-- Witness for C4 at a concrete invalid query. -/
theorem c4_invalid_node_error_iff_witness :
    (gA.n ≤ 10 ∨ gA.n ≤ 0)
    ∧ (∃ e, (TwoDistanceDijkstra.find_second_shortest gA 10 0 dStats0 30).1 = .error e)
    ∧ TwoDistanceDijkstra.find_second_shortest gA 10 0 dStats0 30
        = TwoDistanceDijkstra.find_second_shortest gA 10 0 dStats0 0 :=
  ⟨Or.inl (by decide),
   (c4_invalid_node_error_iff gA 10 0 dStats0 sStats0 30).1.mpr (Or.inl (by decide)),
   ((c4_invalid_node_error_iff gA 10 0 dStats0 sStats0 30).2.2 (Or.inl (by decide))).1⟩

/-- A single Dijkstra edge relaxation preserves the label invariant
`d1 < d2` and never sets `d2[v]` to a value equal to `d1[v]`. -/
theorem drelax_secondAbove (v w dist : ℕ) (s : TwoDistanceDijkstra.State)
    (h : SecondAbove s.d1 s.d2) :
    SecondAbove (TwoDistanceDijkstra.relax_edge v w dist s).d1
      (TwoDistanceDijkstra.relax_edge v w dist s).d2 := by
  simp only [TwoDistanceDijkstra.relax_edge, TwoDistanceDijkstra.push]
  split_ifs with h1 h2 h3
  · intro x hx
    rcases eq_or_ne x v with rfl | hxv
    · simpa using h1
    · simp only [Function.update_noteq hxv] at hx ⊢
      exact h x hx
  · intro x hx
    rcases eq_or_ne x v with rfl | hxv
    · simpa using h1
    · simp only [Function.update_noteq hxv] at hx ⊢
      exact h x hx
  · intro x hx
    rcases eq_or_ne x v with rfl | hxv
    · simpa using h3.1
    · simp only [Function.update_noteq hxv] at hx ⊢
      exact h x hx
  · exact h

/-- Characterization of the label arrays after a Dijkstra edge
relaxation: demotion, secondary improvement, or no change. -/
theorem drelax_labels (v w dist : ℕ) (s : TwoDistanceDijkstra.State) :
    ((TwoDistanceDijkstra.relax_edge v w dist s).d1,
     (TwoDistanceDijkstra.relax_edge v w dist s).d2)
      = if ((dist + w : ℕ) : WDist) < s.d1 v then
          (Function.update s.d1 v ((dist + w : ℕ) : WDist),
           Function.update s.d2 v (s.d1 v))
        else if s.d1 v < ((dist + w : ℕ) : WDist) ∧ ((dist + w : ℕ) : WDist) < s.d2 v then
          (s.d1, Function.update s.d2 v ((dist + w : ℕ) : WDist))
        else (s.d1, s.d2) := by
  simp only [TwoDistanceDijkstra.relax_edge, TwoDistanceDijkstra.push]
  split_ifs <;> rfl

/-- Characterization of the label arrays after an SPFA edge relaxation. -/
theorem srelax_labels (v w dist : ℕ) (s : StateExtendedSPFA.State) :
    ((StateExtendedSPFA.relax_edge v w dist s).d1,
     (StateExtendedSPFA.relax_edge v w dist s).d2)
      = if ((dist + w : ℕ) : WDist) < s.d1 v then
          (Function.update s.d1 v ((dist + w : ℕ) : WDist),
           Function.update s.d2 v (s.d1 v))
        else if s.d1 v < ((dist + w : ℕ) : WDist) ∧ ((dist + w : ℕ) : WDist) < s.d2 v then
          (s.d1, Function.update s.d2 v ((dist + w : ℕ) : WDist))
        else (s.d1, s.d2) := by
  simp only [StateExtendedSPFA.relax_edge]
  split_ifs <;> rfl

/-- The label invariant is preserved by each of the three relaxation
outcomes. -/
theorem secondAbove_of_labels (d1 d2 : ℕ → WDist) (v nd : ℕ)
    (h : SecondAbove d1 d2) :
    (((nd : ℕ) : WDist) < d1 v →
      SecondAbove (Function.update d1 v ((nd : ℕ) : WDist)) (Function.update d2 v (d1 v)))
    ∧ (d1 v < ((nd : ℕ) : WDist) →
      SecondAbove d1 (Function.update d2 v ((nd : ℕ) : WDist))) := by
  constructor
  · intro h1 x hx
    rcases eq_or_ne x v with rfl | hxv
    · simpa using h1
    · simp only [Function.update_noteq hxv] at hx ⊢
      exact h x hx
  · intro h1 x hx
    rcases eq_or_ne x v with rfl | hxv
    · simpa using h1
    · simp only [Function.update_noteq hxv] at hx ⊢
      exact h x hx

/-- A single SPFA edge relaxation preserves the label invariant. -/
theorem srelax_secondAbove (v w dist : ℕ) (s : StateExtendedSPFA.State)
    (h : SecondAbove s.d1 s.d2) :
    SecondAbove (StateExtendedSPFA.relax_edge v w dist s).d1
      (StateExtendedSPFA.relax_edge v w dist s).d2 := by
  have hc := srelax_labels v w dist s
  split_ifs at hc with h1 h2
  · simp only [Prod.mk.injEq] at hc
    rw [hc.1, hc.2]
    exact (secondAbove_of_labels s.d1 s.d2 v (dist + w) h).1 h1
  · simp only [Prod.mk.injEq] at hc
    rw [hc.1, hc.2]
    exact (secondAbove_of_labels s.d1 s.d2 v (dist + w) h).2 h2.1
  · simp only [Prod.mk.injEq] at hc
    rw [hc.1, hc.2]
    exact h

/-- One Dijkstra main-loop iteration preserves the label invariant. -/
theorem dstep_secondAbove (stopEarly : Bool) (g : Graph) (tgt : ℕ)
    (s : TwoDistanceDijkstra.State) (h : SecondAbove s.d1 s.d2) :
    SecondAbove (TwoDistanceDijkstra.step stopEarly g tgt s).d1
      (TwoDistanceDijkstra.step stopEarly g tgt s).d2 := by
  unfold TwoDistanceDijkstra.step
  split
  · exact h
  · split
    · exact h
    · dsimp only
      split_ifs <;>
        first
          | exact h
          | exact foldl_preserves
              (fun (b : TwoDistanceDijkstra.State) (a : ℕ × ℕ) hb =>
                drelax_secondAbove a.1 a.2 _ b hb) _ _ h

/-- One SPFA main-loop iteration preserves the label invariant. -/
theorem sstep_secondAbove (g : Graph) (s : StateExtendedSPFA.State)
    (h : SecondAbove s.d1 s.d2) :
    SecondAbove (StateExtendedSPFA.step g s).d1
      (StateExtendedSPFA.step g s).d2 := by
  unfold StateExtendedSPFA.step
  split
  · exact h
  · dsimp only
    split_ifs <;>
      first
        | exact h
        | exact foldl_preserves
            (fun (b : StateExtendedSPFA.State) (a : ℕ × ℕ) hb =>
              srelax_secondAbove a.1 a.2 _ b hb) _ _ h

/-- The initial Dijkstra state satisfies the label invariant. -/
theorem dinit_secondAbove (src : ℕ) :
    SecondAbove (TwoDistanceDijkstra.init src).d1 (TwoDistanceDijkstra.init src).d2 := by
  intro v hv
  simp [TwoDistanceDijkstra.init] at hv

/-- The initial SPFA state satisfies the label invariant. -/
theorem sinit_secondAbove (src : ℕ) :
    SecondAbove (StateExtendedSPFA.init src).d1 (StateExtendedSPFA.init src).d2 := by
  intro v hv
  simp [StateExtendedSPFA.init] at hv

/-- The label invariant holds at every point of a Dijkstra run. -/
theorem dijkstra_run_secondAbove (stopEarly : Bool) (g : Graph) (src tgt k : ℕ) :
    SecondAbove ((TwoDistanceDijkstra.step stopEarly g tgt)^[k] (TwoDistanceDijkstra.init src)).d1
      ((TwoDistanceDijkstra.step stopEarly g tgt)^[k] (TwoDistanceDijkstra.init src)).d2 := by
  induction k with
  | zero => exact dinit_secondAbove src
  | succ k ih =>
      rw [Function.iterate_succ_apply']
      exact dstep_secondAbove stopEarly g tgt _ ih

/-- The label invariant holds at every point of an SPFA run. -/
theorem spfa_run_secondAbove (g : Graph) (src k : ℕ) :
    SecondAbove ((StateExtendedSPFA.step g)^[k] (StateExtendedSPFA.init src)).d1
      ((StateExtendedSPFA.step g)^[k] (StateExtendedSPFA.init src)).d2 := by
  induction k with
  | zero => exact sinit_secondAbove src
  | succ k ih =>
      rw [Function.iterate_succ_apply']
      exact sstep_secondAbove g _ ih

/-- Claim C2: in both algorithms the per-node label invariant holds throughout
the run: a single relaxation preserves `d1[v] < d2[v]` (whenever both are
finite) and never sets `d2[v]` equal to `d1[v]`; the invariant holds at
every iterate of either main loop; and consequently, whenever
`find_second_shortest` returns with both results present, the returned
`shortest` is strictly below `second_shortest`. -/
theorem c2_label_invariant :
    (∀ (v w dist : ℕ) (s : TwoDistanceDijkstra.State), SecondAbove s.d1 s.d2 →
        SecondAbove (TwoDistanceDijkstra.relax_edge v w dist s).d1
          (TwoDistanceDijkstra.relax_edge v w dist s).d2)
    ∧ (∀ (v w dist : ℕ) (s : StateExtendedSPFA.State), SecondAbove s.d1 s.d2 →
        SecondAbove (StateExtendedSPFA.relax_edge v w dist s).d1
          (StateExtendedSPFA.relax_edge v w dist s).d2)
    ∧ (∀ (stopEarly : Bool) (g : Graph) (src tgt k : ℕ),
        SecondAbove
          ((TwoDistanceDijkstra.step stopEarly g tgt)^[k] (TwoDistanceDijkstra.init src)).d1
          ((TwoDistanceDijkstra.step stopEarly g tgt)^[k] (TwoDistanceDijkstra.init src)).d2)
    ∧ (∀ (g : Graph) (src k : ℕ),
        SecondAbove ((StateExtendedSPFA.step g)^[k] (StateExtendedSPFA.init src)).d1
          ((StateExtendedSPFA.step g)^[k] (StateExtendedSPFA.init src)).d2)
    ∧ (∀ (g : Graph) (src tgt : ℕ) (st : TwoDistanceDijkstra.Stats) (fuel a b : ℕ)
        (res : TwoDistanceDijkstra.Stats),
        TwoDistanceDijkstra.find_second_shortest g src tgt st fuel
          = (.ok (some a, some b), res) → a < b)
    ∧ (∀ (g : Graph) (src tgt : ℕ) (st : StateExtendedSPFA.Stats) (fuel a b : ℕ)
        (res : StateExtendedSPFA.Stats),
        StateExtendedSPFA.find_second_shortest g src tgt st fuel
          = (.ok (some a, some b), res) → a < b) := by
  refine ⟨drelax_secondAbove, srelax_secondAbove,
    dijkstra_run_secondAbove, spfa_run_secondAbove, ?_, ?_⟩
  · intro g src tgt st fuel a b res heq
    unfold TwoDistanceDijkstra.find_second_shortest at heq
    rcases Nat.lt_or_ge src g.n with hs | hs
    · rcases Nat.lt_or_ge tgt g.n with ht | ht
      · rw [if_neg (by omega), if_neg (by omega)] at heq
        simp only [Prod.mk.injEq, Except.ok.injEq] at heq
        have h1 := distToOpt_eq_some.mp heq.1.1
        have h2 := distToOpt_eq_some.mp heq.1.2
        have hInv := dijkstra_run_secondAbove true g src tgt fuel tgt (by rw [h2]; simp)
        rw [h1, h2] at hInv
        exact_mod_cast hInv
      · rw [if_neg (by omega), if_pos (by omega)] at heq
        simp at heq
    · rw [if_pos (by omega)] at heq
      simp at heq
  · intro g src tgt st fuel a b res heq
    unfold StateExtendedSPFA.find_second_shortest at heq
    rcases Nat.lt_or_ge src g.n with hs | hs
    · rcases Nat.lt_or_ge tgt g.n with ht | ht
      · rw [if_neg (by omega), if_neg (by omega)] at heq
        simp only [Prod.mk.injEq, Except.ok.injEq] at heq
        have h1 := distToOpt_eq_some.mp heq.1.1
        have h2 := distToOpt_eq_some.mp heq.1.2
        have hInv := spfa_run_secondAbove g src fuel tgt (by rw [h2]; simp)
        rw [h1, h2] at hInv
        exact_mod_cast hInv
      · rw [if_neg (by omega), if_pos (by omega)] at heq
        simp at heq
    · rw [if_pos (by omega)] at heq
      simp at heq

/-- Witness for C2: a concrete completed query on the triangle graph, for
both algorithms, with both results present and strictly ordered. -/
theorem c2_label_invariant_witness :
    TwoDistanceDijkstra.find_second_shortest gC 0 1 dStats0 40
      = (.ok (some 1, some 2), ⟨11, 8, 5⟩)
    ∧ StateExtendedSPFA.find_second_shortest gC 0 1 sStats0 40
      = (.ok (some 1, some 2), ⟨6, 6, 6, 6, 12, 2, 3, 6⟩)
    ∧ 1 < 2 :=
  ⟨rfl, rfl,
    c2_label_invariant.2.2.2.2.1 gC 0 1 dStats0 40 1 2 ⟨11, 8, 5⟩ rfl⟩

/-- A property preserved by each fold step (for elements of the list) is
preserved by the fold. -/
theorem foldl_preserves_mem {α β : Type _} {f : β → α → β} {P : β → Prop} :
    ∀ (l : List α), (∀ b a, a ∈ l → P b → P (f b a)) → ∀ b, P b → P (l.foldl f b)
  | [], _, _, hb => hb
  | a :: l, h, b, hb =>
      foldl_preserves_mem l (fun b' x hx hb' => h b' x (List.mem_cons_of_mem a hx) hb')
        (f b a) (h b a (List.mem_cons_self a l) hb)

/-- Updating a sound label array with a walk-realizable value keeps it
sound. -/
theorem labelsSound_update (g : Graph) (src : ℕ) (d : ℕ → WDist) (v : ℕ) (x : WDist)
    (h : LabelsSound g src d) (hx : ∀ k : ℕ, x = ((k : ℕ) : WDist) → Walk g src v k) :
    LabelsSound g src (Function.update d v x) := by
  intro y k hy
  rcases eq_or_ne y v with rfl | hyv
  · rw [Function.update_same] at hy
    exact hx k hy
  · rw [Function.update_noteq hyv] at hy
    exact h y k hy

/-- Inserting a sound entry into a sound Dijkstra heap keeps it sound. -/
theorem dentriesSound_insert (g : Graph) (src : ℕ) (e : TwoDistanceDijkstra.Entry)
    (l : List TwoDistanceDijkstra.Entry) (h : DEntriesSound g src l)
    (he : Walk g src e.2.1 e.1) :
    DEntriesSound g src (l.orderedInsert TwoDistanceDijkstra.entry_le e) := by
  intro x hx
  rcases (List.mem_orderedInsert TwoDistanceDijkstra.entry_le).mp hx with rfl | hx
  · exact he
  · exact h x hx

/-- A Dijkstra edge relaxation from a walk-realizable distance preserves
soundness of labels and heap entries. -/
theorem drelax_sound (g : Graph) (src u v w dist : ℕ) (s : TwoDistanceDijkstra.State)
    (hvw : (v, w) ∈ g.adj u) (hu : Walk g src u dist)
    (h1 : LabelsSound g src s.d1) (h2 : LabelsSound g src s.d2)
    (hq : DEntriesSound g src s.pq) :
    LabelsSound g src (TwoDistanceDijkstra.relax_edge v w dist s).d1
    ∧ LabelsSound g src (TwoDistanceDijkstra.relax_edge v w dist s).d2
    ∧ DEntriesSound g src (TwoDistanceDijkstra.relax_edge v w dist s).pq := by
  have hwv : Walk g src v (dist + w) := by
    have := Walk.cons (e := (v, w)) hu hvw
    simpa using this
  simp only [TwoDistanceDijkstra.relax_edge, TwoDistanceDijkstra.push]
  split_ifs with hA hB
  · refine ⟨?_, ?_, ?_⟩
    · exact labelsSound_update g src s.d1 v _ h1
        (fun k hk => by rw [show k = dist + w by exact_mod_cast hk.symm]; exact hwv)
    · exact labelsSound_update g src s.d2 v _ h2 (fun k hk => h1 v k hk)
    · exact dentriesSound_insert g src _ _ hq hwv
  · refine ⟨?_, ?_, ?_⟩
    · exact labelsSound_update g src s.d1 v _ h1
        (fun k hk => by rw [show k = dist + w by exact_mod_cast hk.symm]; exact hwv)
    · exact labelsSound_update g src s.d2 v _ h2 (fun k hk => h1 v k hk)
    · refine dentriesSound_insert g src _ _ (dentriesSound_insert g src _ _ hq hwv) ?_
      exact h1 v _ (WithTop.coe_untop _ _).symm
  · refine ⟨h1, ?_, ?_⟩
    · exact labelsSound_update g src s.d2 v _ h2
        (fun k hk => by rw [show k = dist + w by exact_mod_cast hk.symm]; exact hwv)
    · exact dentriesSound_insert g src _ _ hq hwv
  · exact ⟨h1, h2, hq⟩

/-- An SPFA edge relaxation from a walk-realizable distance preserves
soundness of labels and queue entries. -/
theorem srelax_sound (g : Graph) (src u v w dist : ℕ) (s : StateExtendedSPFA.State)
    (hvw : (v, w) ∈ g.adj u) (hu : Walk g src u dist)
    (h1 : LabelsSound g src s.d1) (h2 : LabelsSound g src s.d2)
    (hq : SEntriesSound g src s.queue) :
    LabelsSound g src (StateExtendedSPFA.relax_edge v w dist s).d1
    ∧ LabelsSound g src (StateExtendedSPFA.relax_edge v w dist s).d2
    ∧ SEntriesSound g src (StateExtendedSPFA.relax_edge v w dist s).queue := by
  have hwv : Walk g src v (dist + w) := by
    have := Walk.cons (e := (v, w)) hu hvw
    simpa using this
  have happ : ∀ (l : List StateExtendedSPFA.Entry) (e : StateExtendedSPFA.Entry),
      SEntriesSound g src l → Walk g src e.1 e.2.1 → SEntriesSound g src (l ++ [e]) := by
    intro l e hl he x hx
    rcases List.mem_append.mp hx with hx | hx
    · exact hl x hx
    · rw [List.mem_singleton.mp hx]
      exact he
  have hd1 : LabelsSound g src (Function.update s.d1 v ((dist + w : ℕ) : WDist)) :=
    labelsSound_update g src s.d1 v _ h1
      (fun k hk => by rw [show k = dist + w by exact_mod_cast hk.symm]; exact hwv)
  have hd2dem : LabelsSound g src (Function.update s.d2 v (s.d1 v)) :=
    labelsSound_update g src s.d2 v _ h2 (fun k hk => h1 v k hk)
  have hd2imp : LabelsSound g src (Function.update s.d2 v ((dist + w : ℕ) : WDist)) :=
    labelsSound_update g src s.d2 v _ h2
      (fun k hk => by rw [show k = dist + w by exact_mod_cast hk.symm]; exact hwv)
  simp only [StateExtendedSPFA.relax_edge]
  split_ifs with hA hB hC hD hE hF hG hH <;>
    first
      | exact ⟨hd1, hd2dem, by
          first
            | exact happ _ _ (happ _ _ hq hwv) (h1 v _ (WithTop.coe_untop _ _).symm)
            | exact happ _ _ hq hwv
            | exact happ _ _ hq (h1 v _ (WithTop.coe_untop _ _).symm)
            | exact hq⟩
      | exact ⟨h1, hd2imp, by
          first
            | exact happ _ _ hq hwv
            | exact hq⟩
      | exact ⟨h1, h2, hq⟩

/-- One Dijkstra main-loop iteration preserves soundness of labels and
heap entries. -/
theorem dstep_sound (stopEarly : Bool) (g : Graph) (src tgt : ℕ)
    (s : TwoDistanceDijkstra.State)
    (h : LabelsSound g src s.d1 ∧ LabelsSound g src s.d2 ∧ DEntriesSound g src s.pq) :
    LabelsSound g src (TwoDistanceDijkstra.step stopEarly g tgt s).d1
    ∧ LabelsSound g src (TwoDistanceDijkstra.step stopEarly g tgt s).d2
    ∧ DEntriesSound g src (TwoDistanceDijkstra.step stopEarly g tgt s).pq := by
  by_cases hh : s.halted = true
  · simp only [TwoDistanceDijkstra.step, if_pos hh]
    exact h
  · cases hpq : s.pq with
    | nil =>
        simp only [TwoDistanceDijkstra.step, if_neg hh, hpq]
        exact ⟨h.1, h.2.1, fun e he => absurd he (by simp)⟩
    | cons e rest =>
        obtain ⟨dist, u, sec⟩ := e
        have hhead : Walk g src u dist := h.2.2 (dist, u, sec) (by rw [hpq]; exact List.mem_cons_self _ _)
        have hrest : DEntriesSound g src rest :=
          fun e he => h.2.2 e (by rw [hpq]; exact List.mem_cons_of_mem _ he)
        simp only [TwoDistanceDijkstra.step, if_neg hh, hpq]
        dsimp only
        split_ifs <;>
          first
            | exact ⟨h.1, h.2.1, hrest⟩
            | exact foldl_preserves_mem
                (P := fun t : TwoDistanceDijkstra.State =>
                  LabelsSound g src t.d1 ∧ LabelsSound g src t.d2 ∧ DEntriesSound g src t.pq)
                (g.adj u)
                (fun b a ha hb =>
                  drelax_sound g src u a.1 a.2 dist b (by simpa using ha) hhead hb.1 hb.2.1 hb.2.2)
                _ ⟨h.1, h.2.1, hrest⟩

/-- One SPFA main-loop iteration preserves soundness of labels and queue
entries. -/
theorem sstep_sound (g : Graph) (src : ℕ) (s : StateExtendedSPFA.State)
    (h : LabelsSound g src s.d1 ∧ LabelsSound g src s.d2 ∧ SEntriesSound g src s.queue) :
    LabelsSound g src (StateExtendedSPFA.step g s).d1
    ∧ LabelsSound g src (StateExtendedSPFA.step g s).d2
    ∧ SEntriesSound g src (StateExtendedSPFA.step g s).queue := by
  cases hpq : s.queue with
  | nil =>
      simp only [StateExtendedSPFA.step, hpq]
      exact ⟨h.1, h.2.1, fun e he => absurd he (by simp)⟩
  | cons e rest =>
      obtain ⟨u, dist, sec⟩ := e
      have hhead : Walk g src u dist := h.2.2 (u, dist, sec) (by rw [hpq]; exact List.mem_cons_self _ _)
      have hrest : SEntriesSound g src rest :=
        fun e he => h.2.2 e (by rw [hpq]; exact List.mem_cons_of_mem _ he)
      simp only [StateExtendedSPFA.step, hpq]
      split_ifs <;>
        first
          | exact ⟨h.1, h.2.1, hrest⟩
          | exact foldl_preserves_mem
              (P := fun t : StateExtendedSPFA.State =>
                LabelsSound g src t.d1 ∧ LabelsSound g src t.d2 ∧ SEntriesSound g src t.queue)
              (g.adj u)
              (fun b a ha hb =>
                srelax_sound g src u a.1 a.2 dist b (by simpa using ha) hhead hb.1 hb.2.1 hb.2.2)
              _ ⟨h.1, h.2.1, hrest⟩

/-- The initial Dijkstra state is sound. -/
theorem dinit_sound (g : Graph) (src : ℕ) :
    LabelsSound g src (TwoDistanceDijkstra.init src).d1
    ∧ LabelsSound g src (TwoDistanceDijkstra.init src).d2
    ∧ DEntriesSound g src (TwoDistanceDijkstra.init src).pq := by
  refine ⟨?_, ?_, ?_⟩
  · intro y k hy
    simp only [TwoDistanceDijkstra.init] at hy
    rcases eq_or_ne y src with rfl | hys
    · rw [Function.update_same] at hy
      have : k = 0 := by exact_mod_cast hy.symm
      rw [this]
      exact Walk.nil
    · rw [Function.update_noteq hys] at hy
      exact absurd hy (by simp)
  · intro y k hy
    simp only [TwoDistanceDijkstra.init] at hy
    exact absurd hy (by simp)
  · intro e he
    simp only [TwoDistanceDijkstra.init, List.mem_singleton] at he
    rw [he]
    exact Walk.nil

/-- The initial SPFA state is sound. -/
theorem sinit_sound (g : Graph) (src : ℕ) :
    LabelsSound g src (StateExtendedSPFA.init src).d1
    ∧ LabelsSound g src (StateExtendedSPFA.init src).d2
    ∧ SEntriesSound g src (StateExtendedSPFA.init src).queue := by
  refine ⟨?_, ?_, ?_⟩
  · intro y k hy
    simp only [StateExtendedSPFA.init] at hy
    rcases eq_or_ne y src with rfl | hys
    · rw [Function.update_same] at hy
      have : k = 0 := by exact_mod_cast hy.symm
      rw [this]
      exact Walk.nil
    · rw [Function.update_noteq hys] at hy
      exact absurd hy (by simp)
  · intro y k hy
    simp only [StateExtendedSPFA.init] at hy
    exact absurd hy (by simp)
  · intro e he
    simp only [StateExtendedSPFA.init, List.mem_singleton] at he
    rw [he]
    exact Walk.nil

/-- Soundness holds at every point of a Dijkstra run. -/
theorem dijkstra_run_sound (stopEarly : Bool) (g : Graph) (src tgt k : ℕ) :
    LabelsSound g src
        ((TwoDistanceDijkstra.step stopEarly g tgt)^[k] (TwoDistanceDijkstra.init src)).d1
    ∧ LabelsSound g src
        ((TwoDistanceDijkstra.step stopEarly g tgt)^[k] (TwoDistanceDijkstra.init src)).d2
    ∧ DEntriesSound g src
        ((TwoDistanceDijkstra.step stopEarly g tgt)^[k] (TwoDistanceDijkstra.init src)).pq := by
  induction k with
  | zero => exact dinit_sound g src
  | succ k ih =>
      rw [Function.iterate_succ_apply']
      exact dstep_sound stopEarly g src tgt _ ih

/-- Soundness holds at every point of an SPFA run. -/
theorem spfa_run_sound (g : Graph) (src k : ℕ) :
    LabelsSound g src ((StateExtendedSPFA.step g)^[k] (StateExtendedSPFA.init src)).d1
    ∧ LabelsSound g src ((StateExtendedSPFA.step g)^[k] (StateExtendedSPFA.init src)).d2
    ∧ SEntriesSound g src ((StateExtendedSPFA.step g)^[k] (StateExtendedSPFA.init src)).queue := by
  induction k with
  | zero => exact sinit_sound g src
  | succ k ih =>
      rw [Function.iterate_succ_apply']
      exact sstep_sound g src _ ih

/-- A sound label array has the infinite sentinel wherever no walk
exists. -/
theorem labelsSound_top_of_unreachable (g : Graph) (src tgt : ℕ) (d : ℕ → WDist)
    (h : LabelsSound g src d) (hw : ¬ ∃ L, Walk g src tgt L) : d tgt = ⊤ := by
  cases hd : d tgt using WithTop.recTopCoe with
  | top => rfl
  | coe a => exact absurd ⟨a, h tgt a hd⟩ hw

/-- Claim C5: for valid queries, in both algorithms, if no walk from source
to target exists then `find_second_shortest` returns both components
absent (`none`, not zero and not an error); and in general each component
of the returned pair is absent exactly when the corresponding label
`d1[target]` / `d2[target]` is still infinite when the loop exits. -/
theorem c5_unreachability (g : Graph) (src tgt : ℕ)
    (stD : TwoDistanceDijkstra.Stats) (stS : StateExtendedSPFA.Stats) (fuel : ℕ)
    (hs : src < g.n) (ht : tgt < g.n) :
    ((¬ ∃ L, Walk g src tgt L) →
      (TwoDistanceDijkstra.find_second_shortest g src tgt stD fuel).1 = .ok (none, none)
      ∧ (StateExtendedSPFA.find_second_shortest g src tgt stS fuel).1 = .ok (none, none))
    ∧ ((TwoDistanceDijkstra.find_second_shortest g src tgt stD fuel).1
        = .ok (distToOpt (((TwoDistanceDijkstra.step true g tgt)^[fuel]
              (TwoDistanceDijkstra.init src)).d1 tgt),
            distToOpt (((TwoDistanceDijkstra.step true g tgt)^[fuel]
              (TwoDistanceDijkstra.init src)).d2 tgt)))
    ∧ ((StateExtendedSPFA.find_second_shortest g src tgt stS fuel).1
        = .ok (distToOpt (((StateExtendedSPFA.step g)^[fuel]
              (StateExtendedSPFA.init src)).d1 tgt),
            distToOpt (((StateExtendedSPFA.step g)^[fuel]
              (StateExtendedSPFA.init src)).d2 tgt)))
    ∧ (∀ x : WDist, distToOpt x = none ↔ x = ⊤) := by
  refine ⟨?_, ?_, ?_, fun x => distToOpt_eq_none⟩
  · intro hw
    constructor
    · have hS := dijkstra_run_sound true g src tgt fuel
      have h1 := labelsSound_top_of_unreachable g src tgt _ hS.1 hw
      have h2 := labelsSound_top_of_unreachable g src tgt _ hS.2.1 hw
      unfold TwoDistanceDijkstra.find_second_shortest
      rw [if_neg (by omega), if_neg (by omega)]
      simp only [h1, h2]
      rfl
    · have hS := spfa_run_sound g src fuel
      have h1 := labelsSound_top_of_unreachable g src tgt _ hS.1 hw
      have h2 := labelsSound_top_of_unreachable g src tgt _ hS.2.1 hw
      unfold StateExtendedSPFA.find_second_shortest
      rw [if_neg (by omega), if_neg (by omega)]
      simp only [h1, h2]
      rfl
  · unfold TwoDistanceDijkstra.find_second_shortest
    rw [if_neg (by omega), if_neg (by omega)]
  · unfold StateExtendedSPFA.find_second_shortest
    rw [if_neg (by omega), if_neg (by omega)]

/-- Witness for C5: on the disconnected graph of spec scenario 2, node 4 is
unreachable from node 0 and both algorithms return `(none, none)`. -/
theorem c5_unreachability_witness :
    (0 < gD.n ∧ 4 < gD.n ∧ ¬ ∃ L, Walk gD 0 4 L)
    ∧ (TwoDistanceDijkstra.find_second_shortest gD 0 4 dStats0 30).1 = .ok (none, none)
    ∧ (StateExtendedSPFA.find_second_shortest gD 0 4 sStats0 30).1 = .ok (none, none) := by
  have hreach : ∀ v L, Walk gD 0 v L → v < 3 := by
    intro v L hw
    induction hw with
    | nil => omega
    | @cons u L e h he ih =>
        interval_cases u <;> (fin_cases he <;> decide)
  have hnw : ¬ ∃ L, Walk gD 0 4 L := by
    rintro ⟨L, hw⟩
    exact absurd (hreach 4 L hw) (by omega)
  exact ⟨⟨by decide, by decide, hnw⟩,
    ((c5_unreachability gD 0 4 dStats0 sStats0 30 (by decide) (by decide)).1 hnw).1,
    ((c5_unreachability gD 0 4 dStats0 sStats0 30 (by decide) (by decide)).1 hnw).2⟩

/-- Splitting a sum over the nodes at an updated index. -/
theorem sum_update_split (F : WDist → ℕ) (g : Graph) (d : ℕ → WDist) (v : ℕ) (a : WDist)
    (hv : v ∈ Finset.range g.n) :
    (∑ x in Finset.range g.n, F (Function.update d v a x)) + F (d v)
      = (∑ x in Finset.range g.n, F (d x)) + F a := by
  have h1 : ∑ x in Finset.range g.n, F (Function.update d v a x)
      = F a + ∑ x in (Finset.range g.n).erase v, F (d x) := by
    rw [← Finset.add_sum_erase _ (fun x => F (Function.update d v a x)) hv]
    congr 1
    · rw [Function.update_same]
    · apply Finset.sum_congr rfl
      intro x hx
      rw [Function.update_noteq (Finset.ne_of_mem_erase hx)]
  have h2 : ∑ x in Finset.range g.n, F (d x)
      = F (d v) + ∑ x in (Finset.range g.n).erase v, F (d x) :=
    (Finset.add_sum_erase _ (fun x => F (d x)) hv).symm
  omega

/-- The label measure strictly drops (lexicographically) under a demotion
`d2[v] := d1[v]; d1[v] := nd` with `nd < d1[v]`, given the label
invariant. -/
theorem labelMeasure_demote (g : Graph) (d1 d2 : ℕ → WDist) (v nd : ℕ) (hv : v < g.n)
    (hInv : SecondAbove d1 d2) (hlt : ((nd : ℕ) : WDist) < d1 v) :
    PairLt
      (labelMeasure g (Function.update d1 v ((nd : ℕ) : WDist)) (Function.update d2 v (d1 v)))
      (labelMeasure g d1 d2) := by
  have hv' : v ∈ Finset.range g.n := Finset.mem_range.mpr hv
  have e1t := sum_update_split topIndicator g d1 v ((nd : ℕ) : WDist) hv'
  have e2t := sum_update_split topIndicator g d2 v (d1 v) hv'
  have e1s := sum_update_split (fun y => y.untop' 0) g d1 v ((nd : ℕ) : WDist) hv'
  have e2s := sum_update_split (fun y => y.untop' 0) g d2 v (d1 v) hv'
  have t_top : topIndicator ⊤ = 1 := rfl
  have t_coe : ∀ j : ℕ, topIndicator ((j : ℕ) : WDist) = 0 := fun j => by
    simp [topIndicator, wcast_ne_top j]
  have u_top : (⊤ : WDist).untop' 0 = 0 := rfl
  have u_coe : ∀ j : ℕ, (((j : ℕ) : WDist)).untop' 0 = j := fun j => by
    rw [Nat.cast_withTop]
    exact WithTop.untop'_coe 0 j
  simp only [labelMeasure, labelTop, labelSum, PairLt]
  simp only at e1s e2s
  rcases wdist_cases (d1 v) with hd1 | ⟨k, hd1⟩
  · have hd2 : d2 v = ⊤ := by
      by_contra hne
      have := hInv v hne
      rw [hd1] at this
      exact absurd this (by simp)
    rw [hd1] at e1t e1s
    rw [hd1, hd2] at e2t e2s
    rw [hd1]
    simp only [t_top, t_coe, u_top, u_coe] at e1t e1s e2t e2s
    omega
  · have hndk : nd < k := by
      rw [hd1] at hlt
      exact wcast_lt.mp hlt
    rw [hd1] at e1t e1s e2t e2s
    rw [hd1]
    rcases wdist_cases (d2 v) with hd2 | ⟨m, hd2⟩
    · rw [hd2] at e2t e2s
      simp only [t_top, t_coe, u_top, u_coe] at e1t e1s e2t e2s
      omega
    · have hkm : k < m := by
        have := hInv v (by rw [hd2]; exact wcast_ne_top m)
        rw [hd1, hd2] at this
        exact wcast_lt.mp this
      rw [hd2] at e2t e2s
      simp only [t_top, t_coe, u_top, u_coe] at e1t e1s e2t e2s
      omega

/-- The label measure strictly drops under a secondary improvement
`d2[v] := nd` with `nd < d2[v]`. -/
theorem labelMeasure_improve (g : Graph) (d1 d2 : ℕ → WDist) (v nd : ℕ) (hv : v < g.n)
    (hlt : ((nd : ℕ) : WDist) < d2 v) :
    PairLt (labelMeasure g d1 (Function.update d2 v ((nd : ℕ) : WDist)))
      (labelMeasure g d1 d2) := by
  have hv' : v ∈ Finset.range g.n := Finset.mem_range.mpr hv
  have e2t := sum_update_split topIndicator g d2 v ((nd : ℕ) : WDist) hv'
  have e2s := sum_update_split (fun y => y.untop' 0) g d2 v ((nd : ℕ) : WDist) hv'
  have t_top : topIndicator ⊤ = 1 := rfl
  have t_coe : ∀ j : ℕ, topIndicator ((j : ℕ) : WDist) = 0 := fun j => by
    simp [topIndicator, wcast_ne_top j]
  have u_top : (⊤ : WDist).untop' 0 = 0 := rfl
  have u_coe : ∀ j : ℕ, (((j : ℕ) : WDist)).untop' 0 = j := fun j => by
    rw [Nat.cast_withTop]
    exact WithTop.untop'_coe 0 j
  simp only [labelMeasure, labelTop, labelSum, PairLt]
  simp only at e2s
  rcases wdist_cases (d2 v) with hd2 | ⟨m, hd2⟩
  · rw [hd2] at e2t e2s
    simp only [t_top, t_coe, u_top, u_coe] at e2t e2s
    omega
  · have hndm : nd < m := by
      rw [hd2] at hlt
      exact wcast_lt.mp hlt
    rw [hd2] at e2t e2s
    simp only [t_top, t_coe, u_top, u_coe] at e2t e2s
    omega

/-- Lexicographic transitivity. -/
theorem PairLt_trans {a b c : ℕ × ℕ} (h1 : PairLt a b) (h2 : PairLt b c) : PairLt a c := by
  unfold PairLt at *
  omega

/-- A Dijkstra edge relaxation either strictly decreases the label measure
or changes neither labels nor heap. -/
theorem drelax_measure (g : Graph) (v w dist : ℕ) (s : TwoDistanceDijkstra.State)
    (hv : v < g.n) (hInv : SecondAbove s.d1 s.d2) :
    PairLt
      (labelMeasure g (TwoDistanceDijkstra.relax_edge v w dist s).d1
        (TwoDistanceDijkstra.relax_edge v w dist s).d2)
      (labelMeasure g s.d1 s.d2)
    ∨ ((TwoDistanceDijkstra.relax_edge v w dist s).d1 = s.d1
        ∧ (TwoDistanceDijkstra.relax_edge v w dist s).d2 = s.d2
        ∧ (TwoDistanceDijkstra.relax_edge v w dist s).pq = s.pq) := by
  simp only [TwoDistanceDijkstra.relax_edge, TwoDistanceDijkstra.push]
  split_ifs with hA hB hC
  · exact Or.inl (labelMeasure_demote g s.d1 s.d2 v (dist + w) hv hInv hA)
  · exact Or.inl (labelMeasure_demote g s.d1 s.d2 v (dist + w) hv hInv hA)
  · exact Or.inl (labelMeasure_improve g s.d1 s.d2 v (dist + w) hv hC.2)
  · exact Or.inr ⟨rfl, rfl, rfl⟩

/-- If neither relaxation guard fires, an SPFA edge relaxation leaves the
queue unchanged. -/
theorem srelax_queue_of_no_change (v w dist : ℕ) (s : StateExtendedSPFA.State)
    (hA : ¬ ((dist + w : ℕ) : WDist) < s.d1 v)
    (hB : ¬ (s.d1 v < ((dist + w : ℕ) : WDist) ∧ ((dist + w : ℕ) : WDist) < s.d2 v)) :
    (StateExtendedSPFA.relax_edge v w dist s).queue = s.queue := by
  simp only [StateExtendedSPFA.relax_edge]
  rw [if_neg hA, if_neg hB]

/-- An SPFA edge relaxation either strictly decreases the label measure or
changes neither labels nor queue. -/
theorem srelax_measure (g : Graph) (v w dist : ℕ) (s : StateExtendedSPFA.State)
    (hv : v < g.n) (hInv : SecondAbove s.d1 s.d2) :
    PairLt
      (labelMeasure g (StateExtendedSPFA.relax_edge v w dist s).d1
        (StateExtendedSPFA.relax_edge v w dist s).d2)
      (labelMeasure g s.d1 s.d2)
    ∨ ((StateExtendedSPFA.relax_edge v w dist s).d1 = s.d1
        ∧ (StateExtendedSPFA.relax_edge v w dist s).d2 = s.d2
        ∧ (StateExtendedSPFA.relax_edge v w dist s).queue = s.queue) := by
  have hc := srelax_labels v w dist s
  split_ifs at hc with hA hB
  · simp only [Prod.mk.injEq] at hc
    rw [hc.1, hc.2]
    exact Or.inl (labelMeasure_demote g s.d1 s.d2 v (dist + w) hv hInv hA)
  · simp only [Prod.mk.injEq] at hc
    rw [hc.1, hc.2]
    exact Or.inl (labelMeasure_improve g s.d1 s.d2 v (dist + w) hv hB.2)
  · simp only [Prod.mk.injEq] at hc
    exact Or.inr ⟨hc.1, hc.2, srelax_queue_of_no_change v w dist s hA hB⟩

/-- Folding Dijkstra relaxations over an edge list either strictly
decreases the label measure or changes neither labels nor heap. -/
theorem dfoldl_measure (g : Graph) (dist : ℕ) :
    ∀ (l : List (ℕ × ℕ)) (s : TwoDistanceDijkstra.State),
      (∀ e ∈ l, e.1 < g.n) → SecondAbove s.d1 s.d2 →
      (PairLt
        (labelMeasure g
          (l.foldl (fun t e => TwoDistanceDijkstra.relax_edge e.1 e.2 dist t) s).d1
          (l.foldl (fun t e => TwoDistanceDijkstra.relax_edge e.1 e.2 dist t) s).d2)
        (labelMeasure g s.d1 s.d2)
      ∨ ((l.foldl (fun t e => TwoDistanceDijkstra.relax_edge e.1 e.2 dist t) s).d1 = s.d1
          ∧ (l.foldl (fun t e => TwoDistanceDijkstra.relax_edge e.1 e.2 dist t) s).d2 = s.d2
          ∧ (l.foldl (fun t e => TwoDistanceDijkstra.relax_edge e.1 e.2 dist t) s).pq = s.pq))
  | [], s, _, _ => Or.inr ⟨rfl, rfl, rfl⟩
  | e :: l, s, hl, hInv => by
      have h1 := drelax_measure g e.1 e.2 dist s (hl e (List.mem_cons_self e l)) hInv
      have h2 := dfoldl_measure g dist l (TwoDistanceDijkstra.relax_edge e.1 e.2 dist s)
        (fun x hx => hl x (List.mem_cons_of_mem e hx))
        (drelax_secondAbove e.1 e.2 dist s hInv)
      simp only [List.foldl_cons]
      rcases h2 with h2 | h2
      · rcases h1 with h1 | h1
        · exact Or.inl (PairLt_trans h2 h1)
        · rw [h1.1, h1.2.1] at h2
          exact Or.inl h2
      · rcases h1 with h1 | h1
        · rw [h2.1, h2.2.1]
          exact Or.inl h1
        · exact Or.inr ⟨h2.1.trans h1.1, h2.2.1.trans h1.2.1, h2.2.2.trans h1.2.2⟩

/-- Folding SPFA relaxations over an edge list either strictly decreases
the label measure or changes neither labels nor queue. -/
theorem sfoldl_measure (g : Graph) (dist : ℕ) :
    ∀ (l : List (ℕ × ℕ)) (s : StateExtendedSPFA.State),
      (∀ e ∈ l, e.1 < g.n) → SecondAbove s.d1 s.d2 →
      (PairLt
        (labelMeasure g
          (l.foldl (fun t e => StateExtendedSPFA.relax_edge e.1 e.2 dist t) s).d1
          (l.foldl (fun t e => StateExtendedSPFA.relax_edge e.1 e.2 dist t) s).d2)
        (labelMeasure g s.d1 s.d2)
      ∨ ((l.foldl (fun t e => StateExtendedSPFA.relax_edge e.1 e.2 dist t) s).d1 = s.d1
          ∧ (l.foldl (fun t e => StateExtendedSPFA.relax_edge e.1 e.2 dist t) s).d2 = s.d2
          ∧ (l.foldl (fun t e => StateExtendedSPFA.relax_edge e.1 e.2 dist t) s).queue
              = s.queue))
  | [], s, _, _ => Or.inr ⟨rfl, rfl, rfl⟩
  | e :: l, s, hl, hInv => by
      have h1 := srelax_measure g e.1 e.2 dist s (hl e (List.mem_cons_self e l)) hInv
      have h2 := sfoldl_measure g dist l (StateExtendedSPFA.relax_edge e.1 e.2 dist s)
        (fun x hx => hl x (List.mem_cons_of_mem e hx))
        (srelax_secondAbove e.1 e.2 dist s hInv)
      simp only [List.foldl_cons]
      rcases h2 with h2 | h2
      · rcases h1 with h1 | h1
        · exact Or.inl (PairLt_trans h2 h1)
        · rw [h1.1, h1.2.1] at h2
          exact Or.inl h2
      · rcases h1 with h1 | h1
        · rw [h2.1, h2.2.1]
          exact Or.inl h1
        · exact Or.inr ⟨h2.1.trans h1.1, h2.2.1.trans h1.2.1, h2.2.2.trans h1.2.2⟩

/-- Auxiliary: folding Dijkstra relaxations, started from a popped state
with the same labels and a strictly shorter heap, strictly decreases the
full measure. -/
theorem dmeasure_foldl_step (g : Graph) (dist u : ℕ)
    (s s' : TwoDistanceDijkstra.State)
    (h1 : s'.d1 = s.d1) (h2 : s'.d2 = s.d2) (h3 : s'.pq.length < s.pq.length)
    (hInv : SecondAbove s.d1 s.d2) (hu : u < g.n) (hWF : g.WellFormed) :
    MeasLt
      (dmeasure g
        ((g.adj u).foldl (fun t e => TwoDistanceDijkstra.relax_edge e.1 e.2 dist t) s'))
      (dmeasure g s) := by
  have hedges : ∀ e ∈ g.adj u, e.1 < g.n := fun e he => (hWF u hu e he).1
  have hInv' : SecondAbove s'.d1 s'.d2 := by
    rw [h1, h2]
    exact hInv
  have hLM : labelMeasure g s'.d1 s'.d2 = labelMeasure g s.d1 s.d2 := by
    rw [h1, h2]
  rcases dfoldl_measure g dist (g.adj u) s' hedges hInv' with hres | hres
  · rw [hLM] at hres
    exact Or.inl hres
  · refine Or.inr ⟨?_, ?_⟩
    · simp only [dmeasure]
      rw [hres.1, hres.2.1, h1, h2]
    · simp only [dmeasure]
      rw [hres.2.2]
      exact h3

/-- Auxiliary: folding SPFA relaxations, started from a popped state with
the same labels and a strictly shorter queue, strictly decreases the full
measure. -/
theorem smeasure_foldl_step (g : Graph) (dist u : ℕ)
    (s s' : StateExtendedSPFA.State)
    (h1 : s'.d1 = s.d1) (h2 : s'.d2 = s.d2) (h3 : s'.queue.length < s.queue.length)
    (hInv : SecondAbove s.d1 s.d2) (hu : u < g.n) (hWF : g.WellFormed) :
    MeasLt
      (smeasure g
        ((g.adj u).foldl (fun t e => StateExtendedSPFA.relax_edge e.1 e.2 dist t) s'))
      (smeasure g s) := by
  have hedges : ∀ e ∈ g.adj u, e.1 < g.n := fun e he => (hWF u hu e he).1
  have hInv' : SecondAbove s'.d1 s'.d2 := by
    rw [h1, h2]
    exact hInv
  have hLM : labelMeasure g s'.d1 s'.d2 = labelMeasure g s.d1 s.d2 := by
    rw [h1, h2]
  rcases sfoldl_measure g dist (g.adj u) s' hedges hInv' with hres | hres
  · rw [hLM] at hres
    exact Or.inl hres
  · refine Or.inr ⟨?_, ?_⟩
    · simp only [smeasure]
      rw [hres.1, hres.2.1, h1, h2]
    · simp only [smeasure]
      rw [hres.2.2]
      exact h3

/-- One Dijkstra iteration on an unfinished state strictly decreases the
termination measure. -/
theorem dstep_measure (stopEarly : Bool) (g : Graph) (tgt : ℕ)
    (s : TwoDistanceDijkstra.State) (hWF : g.WellFormed)
    (hInv : SecondAbove s.d1 s.d2) (hnd : ¬ TwoDistanceDijkstra.done s) :
    MeasLt (dmeasure g (TwoDistanceDijkstra.step stopEarly g tgt s)) (dmeasure g s) := by
  unfold TwoDistanceDijkstra.done at hnd
  push_neg at hnd
  have hh : s.halted = false := by
    cases hhc : s.halted
    · rfl
    · exact absurd hhc hnd.1
  obtain ⟨e, rest, hpq⟩ : ∃ e rest, s.pq = e :: rest := by
    cases hpqc : s.pq with
    | nil => exact absurd hpqc hnd.2
    | cons e rest => exact ⟨e, rest, rfl⟩
  obtain ⟨dist, u, sec⟩ := e
  have hlen : rest.length < s.pq.length := by
    rw [hpq]
    simp
  simp only [TwoDistanceDijkstra.step, hh, hpq]
  simp only [Bool.false_eq_true, if_false]
  split_ifs with h1 h2 h3 h4
  · exact Or.inr ⟨rfl, hlen⟩
  · exact Or.inr ⟨rfl, hlen⟩
  · exact Or.inr ⟨rfl, hlen⟩
  · exact dmeasure_foldl_step g dist u s _ rfl rfl hlen hInv h4 hWF
  · exact Or.inr ⟨rfl, hlen⟩

/-- One SPFA iteration on an unfinished state strictly decreases the
termination measure. -/
theorem sstep_measure (g : Graph) (s : StateExtendedSPFA.State) (hWF : g.WellFormed)
    (hInv : SecondAbove s.d1 s.d2) (hnd : ¬ StateExtendedSPFA.done s) :
    MeasLt (smeasure g (StateExtendedSPFA.step g s)) (smeasure g s) := by
  unfold StateExtendedSPFA.done at hnd
  obtain ⟨e, rest, hpq⟩ : ∃ e rest, s.queue = e :: rest := by
    cases hpqc : s.queue with
    | nil => exact absurd hpqc hnd
    | cons e rest => exact ⟨e, rest, rfl⟩
  obtain ⟨u, dist, sec⟩ := e
  have hlen : rest.length < s.queue.length := by
    rw [hpq]
    simp
  simp only [StateExtendedSPFA.step, hpq]
  split_ifs <;>
    first
      | exact Or.inr ⟨rfl, hlen⟩
      | (rename_i hu
         exact smeasure_foldl_step g dist u s _ rfl rfl hlen hInv hu hWF)

/-- A finished Dijkstra state is a fixed point of the loop body. -/
theorem dstep_done_stable (stopEarly : Bool) (g : Graph) (tgt : ℕ)
    (s : TwoDistanceDijkstra.State) (h : TwoDistanceDijkstra.done s) :
    TwoDistanceDijkstra.step stopEarly g tgt s = s := by
  unfold TwoDistanceDijkstra.done at h
  by_cases hh : s.halted = true
  · simp [TwoDistanceDijkstra.step, hh]
  · have hpq : s.pq = [] := by
      rcases h with h | h
      · exact absurd h hh
      · exact h
    simp [TwoDistanceDijkstra.step, hh, hpq]

/-- A finished SPFA state is a fixed point of the loop body. -/
theorem sstep_done_stable (g : Graph) (s : StateExtendedSPFA.State)
    (h : StateExtendedSPFA.done s) : StateExtendedSPFA.step g s = s := by
  unfold StateExtendedSPFA.done at h
  simp [StateExtendedSPFA.step, h]

/-- Iterating past a fixed point does not change the state. -/
theorem iterate_fixed {α : Type _} (f : α → α) (s : α) (k : ℕ)
    (h : f (f^[k] s) = f^[k] s) :
    ∀ j, k ≤ j → f^[j] s = f^[k] s := by
  intro j hkj
  obtain ⟨d, rfl⟩ := Nat.exists_eq_add_of_le hkj
  induction d with
  | zero => rfl
  | succ d ih =>
      rw [show k + (d + 1) = (k + d) + 1 by omega, Function.iterate_succ_apply',
        ih (by omega)]
      exact h

/-- From any state satisfying the label invariant, the Dijkstra loop
reaches a finished state after finitely many iterations (strong induction
on the termination measure). -/
theorem dijkstra_fuel (stopEarly : Bool) (g : Graph) (tgt : ℕ) (hWF : g.WellFormed) :
    ∀ (a b c : ℕ) (s : TwoDistanceDijkstra.State), SecondAbove s.d1 s.d2 →
      dmeasure g s = ((a, b), c) →
      ∃ k, TwoDistanceDijkstra.done ((TwoDistanceDijkstra.step stopEarly g tgt)^[k] s) := by
  intro a
  induction a using Nat.strong_induction_on with
  | _ a ihA =>
    intro b
    induction b using Nat.strong_induction_on with
    | _ b ihB =>
      intro c
      induction c using Nat.strong_induction_on with
      | _ c ihC =>
        intro s hInv hm
        by_cases hd : TwoDistanceDijkstra.done s
        · exact ⟨0, hd⟩
        · have hlt := dstep_measure stopEarly g tgt s hWF hInv hd
          have hInv' := dstep_secondAbove stopEarly g tgt s hInv
          rw [hm] at hlt
          rcases hm' : dmeasure g (TwoDistanceDijkstra.step stopEarly g tgt s)
            with ⟨⟨a', b'⟩, c'⟩
          rw [hm'] at hlt
          simp only [MeasLt, PairLt] at hlt
          have hnext : ∃ k, TwoDistanceDijkstra.done
              ((TwoDistanceDijkstra.step stopEarly g tgt)^[k]
                (TwoDistanceDijkstra.step stopEarly g tgt s)) := by
            rcases hlt with h | h
            · rcases h with h | h
              · exact ihA a' h b' c' _ hInv' hm'
              · exact ihB b' h.2 c' _ hInv' (by rw [hm', h.1])
            · obtain ⟨hab, hc⟩ := h
              have ha : a' = a := congrArg Prod.fst hab
              have hb : b' = b := congrArg Prod.snd hab
              exact ihC c' hc _ hInv' (by rw [hm', ha, hb])
          obtain ⟨k, hk⟩ := hnext
          exact ⟨k + 1, by rwa [Function.iterate_succ_apply]⟩

/-- From any state satisfying the label invariant, the SPFA loop reaches a
finished state after finitely many iterations. -/
theorem spfa_fuel (g : Graph) (hWF : g.WellFormed) :
    ∀ (a b c : ℕ) (s : StateExtendedSPFA.State), SecondAbove s.d1 s.d2 →
      smeasure g s = ((a, b), c) →
      ∃ k, StateExtendedSPFA.done ((StateExtendedSPFA.step g)^[k] s) := by
  intro a
  induction a using Nat.strong_induction_on with
  | _ a ihA =>
    intro b
    induction b using Nat.strong_induction_on with
    | _ b ihB =>
      intro c
      induction c using Nat.strong_induction_on with
      | _ c ihC =>
        intro s hInv hm
        by_cases hd : StateExtendedSPFA.done s
        · exact ⟨0, hd⟩
        · have hlt := sstep_measure g s hWF hInv hd
          have hInv' := sstep_secondAbove g s hInv
          rw [hm] at hlt
          rcases hm' : smeasure g (StateExtendedSPFA.step g s) with ⟨⟨a', b'⟩, c'⟩
          rw [hm'] at hlt
          simp only [MeasLt, PairLt] at hlt
          have hnext : ∃ k, StateExtendedSPFA.done
              ((StateExtendedSPFA.step g)^[k] (StateExtendedSPFA.step g s)) := by
            rcases hlt with h | h
            · rcases h with h | h
              · exact ihA a' h b' c' _ hInv' hm'
              · exact ihB b' h.2 c' _ hInv' (by rw [hm', h.1])
            · obtain ⟨hab, hc⟩ := h
              have ha : a' = a := congrArg Prod.fst hab
              have hb : b' = b := congrArg Prod.snd hab
              exact ihC c' hc _ hInv' (by rw [hm', ha, hb])
          obtain ⟨k, hk⟩ := hnext
          exact ⟨k + 1, by rwa [Function.iterate_succ_apply]⟩

/-- Claim C6: for every finite well-formed graph (dense nodes, positive
integer weights) and every valid query, both algorithms' main loops
terminate: some finite fuel reaches a finished state — queue exhaustion,
or for Dijkstra possibly the early-termination `break` — and the state is
then stable, so every larger fuel gives the same outcome.  This covers the
source's `while` loops (the fuel-indexed runs stabilize), for the early
stopping Dijkstra, the exhaustive Dijkstra variant, and the SPFA. -/
theorem c6_termination (g : Graph) (src tgt : ℕ) (hWF : g.WellFormed)
    (hs : src < g.n) (ht : tgt < g.n) :
    (∀ stopEarly : Bool, ∃ k,
      TwoDistanceDijkstra.done
        ((TwoDistanceDijkstra.step stopEarly g tgt)^[k] (TwoDistanceDijkstra.init src))
      ∧ ∀ j, k ≤ j →
        (TwoDistanceDijkstra.step stopEarly g tgt)^[j] (TwoDistanceDijkstra.init src)
          = (TwoDistanceDijkstra.step stopEarly g tgt)^[k] (TwoDistanceDijkstra.init src))
    ∧ (∃ k,
      StateExtendedSPFA.done ((StateExtendedSPFA.step g)^[k] (StateExtendedSPFA.init src))
      ∧ ∀ j, k ≤ j →
        (StateExtendedSPFA.step g)^[j] (StateExtendedSPFA.init src)
          = (StateExtendedSPFA.step g)^[k] (StateExtendedSPFA.init src)) := by
  constructor
  · intro stopEarly
    obtain ⟨k, hk⟩ := dijkstra_fuel stopEarly g tgt hWF
      (dmeasure g (TwoDistanceDijkstra.init src)).1.1
      (dmeasure g (TwoDistanceDijkstra.init src)).1.2
      (dmeasure g (TwoDistanceDijkstra.init src)).2
      (TwoDistanceDijkstra.init src) (dinit_secondAbove src) rfl
    refine ⟨k, hk, ?_⟩
    exact iterate_fixed _ _ k (dstep_done_stable stopEarly g tgt _ hk)
  · obtain ⟨k, hk⟩ := spfa_fuel g hWF
      (smeasure g (StateExtendedSPFA.init src)).1.1
      (smeasure g (StateExtendedSPFA.init src)).1.2
      (smeasure g (StateExtendedSPFA.init src)).2
      (StateExtendedSPFA.init src) (sinit_secondAbove src) rfl
    refine ⟨k, hk, ?_⟩
    exact iterate_fixed _ _ k (sstep_done_stable g _ hk)

/-- Witness for C6 on the triangle graph. -/
theorem c6_termination_witness :
    (gC.WellFormed ∧ 0 < gC.n ∧ 1 < gC.n)
    ∧ (∃ k, StateExtendedSPFA.done
        ((StateExtendedSPFA.step gC)^[k] (StateExtendedSPFA.init 0))) := by
  have hWF : gC.WellFormed := by
    intro u hu e he
    simp only [gC] at hu
    interval_cases u <;> (fin_cases he <;> constructor <;> decide)
  refine ⟨⟨hWF, by decide, by decide⟩, ?_⟩
  obtain ⟨k, hk, _⟩ := (c6_termination gC 0 1 hWF (by decide) (by decide)).2
  exact ⟨k, hk⟩

/-- Order on finite distances is the order on the naturals. -/
theorem wcast_le {a b : ℕ} : ((a : ℕ) : WDist) ≤ ((b : ℕ) : WDist) ↔ a ≤ b := by
  rw [Nat.cast_withTop, Nat.cast_withTop]
  exact WithTop.coe_le_coe

/-- The heap order is primarily by distance. -/
theorem entry_le_fst {a b : TwoDistanceDijkstra.Entry}
    (h : TwoDistanceDijkstra.entry_le a b) : a.1 ≤ b.1 := by
  unfold TwoDistanceDijkstra.entry_le at h
  omega

/-- Membership in the heap after a push. -/
theorem mem_push {e f : TwoDistanceDijkstra.Entry} {s : TwoDistanceDijkstra.State} :
    e ∈ (TwoDistanceDijkstra.push f s).pq ↔ e = f ∨ e ∈ s.pq := by
  simp only [TwoDistanceDijkstra.push]
  exact List.mem_orderedInsert TwoDistanceDijkstra.entry_le

/-- Pushing preserves sortedness of the heap. -/
theorem sorted_push {f : TwoDistanceDijkstra.Entry} {s : TwoDistanceDijkstra.State}
    (h : List.Sorted TwoDistanceDijkstra.entry_le s.pq) :
    List.Sorted TwoDistanceDijkstra.entry_le (TwoDistanceDijkstra.push f s).pq :=
  List.Sorted.orderedInsert f s.pq h

/-- A Dijkstra relaxation never increases a `d2` label. -/
theorem drelax_d2_le (v w dist : ℕ) (s : TwoDistanceDijkstra.State)
    (hInv : SecondAbove s.d1 s.d2) (x : ℕ) :
    (TwoDistanceDijkstra.relax_edge v w dist s).d2 x ≤ s.d2 x := by
  have hc := drelax_labels v w dist s
  split_ifs at hc with hA hC
  · simp only [Prod.mk.injEq] at hc
    rw [hc.2]
    rcases eq_or_ne x v with rfl | hxv
    · rw [Function.update_same]
      rcases wdist_cases (s.d2 x) with hd2 | ⟨m, hd2⟩
      · rw [hd2]
        exact le_top
      · exact le_of_lt (hInv x (by rw [hd2]; exact wcast_ne_top m))
    · rw [Function.update_noteq hxv]
  · simp only [Prod.mk.injEq] at hc
    rw [hc.2]
    rcases eq_or_ne x v with rfl | hxv
    · rw [Function.update_same]
      exact le_of_lt hC.2
    · rw [Function.update_noteq hxv]
  · simp only [Prod.mk.injEq] at hc
    rw [hc.2]

/-- A Dijkstra edge relaxation preserves the run invariant of the
early-stopping search. -/
theorem drelax_inv (g : Graph) (tgt v w dist : ℕ) (s : TwoDistanceDijkstra.State)
    (h : DStateInv g tgt s) : DStateInv g tgt (TwoDistanceDijkstra.relax_edge v w dist s) := by
  obtain ⟨hsort, hInv, hbound, hpres⟩ := h
  have hd2le := drelax_d2_le v w dist s hInv
  have hInv' := drelax_secondAbove v w dist s hInv
  have hhalt : (TwoDistanceDijkstra.relax_edge v w dist s).halted = s.halted := by
    simp only [TwoDistanceDijkstra.relax_edge, TwoDistanceDijkstra.push]
    split_ifs <;> rfl
  refine ⟨?_, hInv', ?_, ?_⟩
  · simp only [TwoDistanceDijkstra.relax_edge, TwoDistanceDijkstra.push]
    split_ifs <;>
      first
        | exact hsort
        | exact List.Sorted.orderedInsert _ _ hsort
        | exact List.Sorted.orderedInsert _ _ (List.Sorted.orderedInsert _ _ hsort)
  · -- every SECONDARY entry dominates the live d2 of its node
    have hdem_le : ∀ x, Function.update s.d2 v (s.d1 v) x ≤ s.d2 x := by
      intro x
      rcases eq_or_ne x v with rfl | hxv
      · rw [Function.update_same]
        rcases wdist_cases (s.d2 x) with hd2 | ⟨m, hd2⟩
        · rw [hd2]
          exact le_top
        · exact le_of_lt (hInv x (by rw [hd2]; exact wcast_ne_top m))
      · rw [Function.update_noteq hxv]
    intro e he hsec
    simp only [TwoDistanceDijkstra.relax_edge, TwoDistanceDijkstra.push] at he ⊢
    split_ifs at he ⊢ with hA hB hC
    · dsimp only at he ⊢
      rcases (List.mem_orderedInsert _).mp he with rfl | he
      · exact absurd hsec (by simp)
      · exact le_trans (hdem_le e.2.1) (hbound e he hsec)
    · dsimp only at he ⊢
      rcases (List.mem_orderedInsert _).mp he with rfl | he
      · simp only [Function.update_same]
        rw [Nat.cast_withTop, WithTop.coe_untop]
      · rcases (List.mem_orderedInsert _).mp he with rfl | he
        · exact absurd hsec (by simp)
        · exact le_trans (hdem_le e.2.1) (hbound e he hsec)
    · dsimp only at he ⊢
      rcases (List.mem_orderedInsert _).mp he with rfl | he
      · simp only [Function.update_same]
        exact le_refl _
      · have himp_le : Function.update s.d2 v ((dist + w : ℕ) : WDist) e.2.1 ≤ s.d2 e.2.1 := by
          rcases eq_or_ne e.2.1 v with hev | hev
          · rw [hev, Function.update_same]
            exact le_of_lt hC.2
          · rw [Function.update_noteq hev]
        exact le_trans himp_le (hbound e he hsec)
    · exact hbound e he hsec
  · -- the live d2[target], when finite on an unhalted state, is in the heap
    rw [hhalt]
    intro hh k hk
    simp only [TwoDistanceDijkstra.relax_edge, TwoDistanceDijkstra.push] at hk ⊢
    split_ifs at hk ⊢ with hA hB hC
    · dsimp only at hk ⊢
      rcases eq_or_ne tgt v with rfl | htv
      · rw [Function.update_same, hB] at hk
        exact absurd hk.symm (wcast_ne_top k)
      · rw [Function.update_noteq htv] at hk
        exact (List.mem_orderedInsert _).mpr (Or.inr (hpres hh k hk))
    · dsimp only at hk ⊢
      rcases eq_or_ne tgt v with rfl | htv
      · rw [Function.update_same] at hk
        refine (List.mem_orderedInsert _).mpr (Or.inl ?_)
        have hcu : ((WithTop.untop (s.d1 tgt) hB : ℕ) : WDist) = s.d1 tgt := by
          rw [Nat.cast_withTop]
          exact WithTop.coe_untop _ _
        have hkeq : WithTop.untop (s.d1 tgt) hB = k := by
          apply wcast_inj.mp
          rw [hcu, hk]
        rw [hkeq]
      · rw [Function.update_noteq htv] at hk
        exact (List.mem_orderedInsert _).mpr
          (Or.inr ((List.mem_orderedInsert _).mpr (Or.inr (hpres hh k hk))))
    · dsimp only at hk ⊢
      rcases eq_or_ne tgt v with rfl | htv
      · rw [Function.update_same] at hk
        have hkeq : dist + w = k := wcast_inj.mp hk
        refine (List.mem_orderedInsert _).mpr (Or.inl ?_)
        rw [hkeq]
      · rw [Function.update_noteq htv] at hk
        exact (List.mem_orderedInsert _).mpr (Or.inr (hpres hh k hk))
    · exact hpres hh k hk

/-- One iteration of the early-stopping Dijkstra loop preserves the run
invariant. -/
theorem dstep_inv (g : Graph) (tgt : ℕ) (s : TwoDistanceDijkstra.State)
    (h : DStateInv g tgt s) : DStateInv g tgt (TwoDistanceDijkstra.step true g tgt s) := by
  obtain ⟨hsort, hInv, hbound, hpres⟩ := h
  by_cases hh : s.halted = true
  · rw [dstep_done_stable true g tgt s (Or.inl hh)]
    exact ⟨hsort, hInv, hbound, hpres⟩
  · have hh' : s.halted = false := by
      cases hhc : s.halted
      · rfl
      · exact absurd hhc hh
    cases hpq : s.pq with
    | nil =>
        rw [dstep_done_stable true g tgt s (Or.inr hpq)]
        exact ⟨hsort, hInv, hbound, hpres⟩
    | cons e rest =>
        obtain ⟨d, u, sec⟩ := e
        have hsort_rest : List.Sorted TwoDistanceDijkstra.entry_le rest := by
          rw [hpq] at hsort
          exact hsort.of_cons
        have hbound_rest : ∀ e ∈ rest, e.2.2 = true → s.d2 e.2.1 ≤ ((e.1 : ℕ) : WDist) :=
          fun e he hsec => hbound e (by rw [hpq]; exact List.mem_cons_of_mem _ he) hsec
        have hpres_rest : ¬ (u = tgt ∧ sec = true) →
            ∀ k : ℕ, s.d2 tgt = ((k : ℕ) : WDist) →
              ((k, tgt, true) : TwoDistanceDijkstra.Entry) ∈ rest := by
          intro hnb k hk
          have := hpres hh' k hk
          rw [hpq] at this
          rcases List.mem_cons.mp this with heq | hmem
          · exfalso
            apply hnb
            have h1 : tgt = u := congrArg (fun x : TwoDistanceDijkstra.Entry => x.2.1) heq
            have h2 : true = sec := congrArg (fun x : TwoDistanceDijkstra.Entry => x.2.2) heq
            exact ⟨h1.symm, h2.symm⟩
          · exact hmem
        simp only [TwoDistanceDijkstra.step, hh', hpq]
        simp only [Bool.false_eq_true, if_false]
        split_ifs with h1 h2 h3 h4
        · -- break: the popped entry is (target, SECONDARY); halting
          refine ⟨hsort_rest, hInv, hbound_rest, ?_⟩
          intro hfalse
          exact absurd hfalse (by simp)
        · -- stale SECONDARY pop
          refine ⟨hsort_rest, hInv, hbound_rest, fun _ k hk => ?_⟩
          refine hpres_rest ?_ k hk
          intro hub
          exact h1 ⟨by trivial, hub.1, hub.2⟩
        · -- stale PRIMARY pop
          refine ⟨hsort_rest, hInv, hbound_rest, fun _ k hk => ?_⟩
          refine hpres_rest ?_ k hk
          intro hub
          exact h1 ⟨by trivial, hub.1, hub.2⟩
        · -- process: relax all outgoing edges
          refine foldl_preserves
            (fun (b : TwoDistanceDijkstra.State) (a : ℕ × ℕ) hb =>
              drelax_inv g tgt a.1 a.2 d b hb) _ _ ?_
          refine ⟨hsort_rest, hInv, hbound_rest, fun _ k hk => ?_⟩
          refine hpres_rest ?_ k hk
          intro hub
          exact h1 ⟨by trivial, hub.1, hub.2⟩
        · refine ⟨hsort_rest, hInv, hbound_rest, fun _ k hk => ?_⟩
          refine hpres_rest ?_ k hk
          intro hub
          exact h1 ⟨by trivial, hub.1, hub.2⟩

/-- The initial Dijkstra state satisfies the run invariant. -/
theorem dinit_inv (g : Graph) (tgt src : ℕ) : DStateInv g tgt (TwoDistanceDijkstra.init src) := by
  refine ⟨?_, dinit_secondAbove src, ?_, ?_⟩
  · simp [TwoDistanceDijkstra.init]
  · intro e he hsec
    simp only [TwoDistanceDijkstra.init, List.mem_singleton] at he
    rw [he] at hsec
    exact absurd hsec (by simp)
  · intro _ k hk
    simp only [TwoDistanceDijkstra.init] at hk
    exact absurd hk.symm (wcast_ne_top k)

/-- The run invariant holds at every point of the early-stopping Dijkstra
run. -/
theorem dijkstra_run_inv (g : Graph) (src tgt k : ℕ) :
    DStateInv g tgt ((TwoDistanceDijkstra.step true g tgt)^[k] (TwoDistanceDijkstra.init src)) := by
  induction k with
  | zero => exact dinit_inv g tgt src
  | succ k ih =>
      rw [Function.iterate_succ_apply']
      exact dstep_inv g tgt _ ih

/-- Whenever the early-stopping Dijkstra run is about to pop a
`(target, SECONDARY)` entry, that entry's distance equals the live
`d2[target]`: the `break` fires only on fresh entries. -/
theorem dijkstra_break_fresh (g : Graph) (src tgt k d : ℕ)
    (rest : List TwoDistanceDijkstra.Entry)
    (hh : ((TwoDistanceDijkstra.step true g tgt)^[k] (TwoDistanceDijkstra.init src)).halted = false)
    (hpq : ((TwoDistanceDijkstra.step true g tgt)^[k] (TwoDistanceDijkstra.init src)).pq
      = (d, tgt, true) :: rest) :
    ((d : ℕ) : WDist)
      = ((TwoDistanceDijkstra.step true g tgt)^[k] (TwoDistanceDijkstra.init src)).d2 tgt := by
  obtain ⟨hsort, hInv, hbound, hpres⟩ := dijkstra_run_inv g src tgt k
  set s := (TwoDistanceDijkstra.step true g tgt)^[k] (TwoDistanceDijkstra.init src) with hs
  have hble : s.d2 tgt ≤ ((d : ℕ) : WDist) :=
    hbound (d, tgt, true) (by rw [hpq]; exact List.mem_cons_self _ _) rfl
  rcases wdist_cases (s.d2 tgt) with htop | ⟨m, hm⟩
  · rw [htop] at hble
    exact absurd hble (by simp [wcast_ne_top d |>.symm, top_le_iff, wcast_ne_top])
  · have hmem := hpres hh m hm
    rw [hpq] at hmem
    have hmd : m = d ∨ ((m, tgt, true) : TwoDistanceDijkstra.Entry) ∈ rest := by
      rcases List.mem_cons.mp hmem with heq | hmem'
      · exact Or.inl (congrArg (fun x : TwoDistanceDijkstra.Entry => x.1) heq)
      · exact Or.inr hmem'
    rw [hm]
    rw [hm] at hble
    have hmled : m ≤ d := wcast_le.mp hble
    rcases hmd with rfl | hmem'
    · rfl
    · have hle : TwoDistanceDijkstra.entry_le (d, tgt, true) (m, tgt, true) := by
        rw [hpq] at hsort
        exact (List.sorted_cons.mp hsort).1 _ hmem'
      have hdm : d ≤ m := entry_le_fst hle
      have : m = d := le_antisymm hmled hdm
      rw [this]

/-- Decoding the break-head test. -/
theorem breakHeadB_eq_true {tgt : ℕ} {s : TwoDistanceDijkstra.State} :
    breakHeadB tgt s = true
      ↔ s.halted = false ∧ ∃ d rest, s.pq = (d, tgt, true) :: rest := by
  unfold breakHeadB
  constructor
  · intro h
    rw [Bool.and_eq_true] at h
    obtain ⟨hna, hm⟩ := h
    have hh : s.halted = false := by
      cases hhc : s.halted
      · rfl
      · rw [hhc] at hna
        exact absurd hna (by simp)
    refine ⟨hh, ?_⟩
    cases hpq : s.pq with
    | nil =>
        rw [hpq] at hm
        exact absurd hm (by simp)
    | cons e rest =>
        obtain ⟨d, u, sec⟩ := e
        rw [hpq] at hm
        cases sec with
        | false => exact absurd hm (by simp)
        | true =>
            have hm' : (u == tgt) = true := hm
            have hmu : u = tgt := by simpa using hm'
            refine ⟨d, rest, ?_⟩
            rw [hmu]
  · rintro ⟨hh, d, rest, hpq⟩
    rw [hh, hpq]
    simp

/-- When the break head is absent, one iteration of the early-stopping and
exhaustive Dijkstra loops agree. -/
theorem dstep_true_eq_false (g : Graph) (tgt : ℕ) (s : TwoDistanceDijkstra.State)
    (hnb : breakHeadB tgt s = false) :
    TwoDistanceDijkstra.step true g tgt s = TwoDistanceDijkstra.step false g tgt s := by
  by_cases hh : s.halted = true
  · rw [dstep_done_stable true g tgt s (Or.inl hh),
      dstep_done_stable false g tgt s (Or.inl hh)]
  · have hh' : s.halted = false := by
      cases hhc : s.halted
      · rfl
      · exact absurd hhc hh
    cases hpq : s.pq with
    | nil =>
        rw [dstep_done_stable true g tgt s (Or.inr hpq),
          dstep_done_stable false g tgt s (Or.inr hpq)]
    | cons e rest =>
        obtain ⟨d, u, sec⟩ := e
        have hnosec : ¬ (u = tgt ∧ sec = true) := by
          rintro ⟨rfl, rfl⟩
          rw [breakHeadB_eq_true.mpr ⟨hh', d, rest, hpq⟩] at hnb
          exact absurd hnb (by simp)
        simp only [TwoDistanceDijkstra.step, hh', hpq]
        simp only [Bool.false_eq_true, false_and, if_false, eq_self_iff_true, true_and]
        rw [if_neg hnosec]

/-- One iteration of the early-stopping loop on a break-head state pops
the entry and halts, leaving the labels untouched. -/
theorem dstep_break (g : Graph) (tgt d : ℕ) (rest : List TwoDistanceDijkstra.Entry)
    (s : TwoDistanceDijkstra.State) (hh : s.halted = false)
    (hpq : s.pq = (d, tgt, true) :: rest) :
    TwoDistanceDijkstra.step true g tgt s
      = { s with pq := rest, iterations := s.iterations + 1,
                 pq_operations := s.pq_operations + 1, halted := true } := by
  simp only [TwoDistanceDijkstra.step, hh, hpq]
  simp only [Bool.false_eq_true, if_false]
  rw [if_pos ⟨trivial, trivial, trivial⟩]

/-- Two finished points of the same fueled iteration agree. -/
theorem iterate_done_agree {α : Type _} (f : α → α) (P : α → Prop)
    (hfix : ∀ s, P s → f s = s) (s0 : α) (i j : ℕ)
    (hi : P (f^[i] s0)) (hj : P (f^[j] s0)) : f^[i] s0 = f^[j] s0 := by
  rcases le_total i j with hij | hij
  · exact (iterate_fixed f s0 i (hfix _ hi) j hij).symm
  · exact iterate_fixed f s0 j (hfix _ hj) i hij

/-- An edge relaxation at distance at least `D` preserves the after-break
situation. -/
theorem drelax_after (tgt a' D v w dist : ℕ) (aW : WDist) (s : TwoDistanceDijkstra.State)
    (hdist : D ≤ dist) (h : DAfter tgt aW D s) :
    DAfter tgt aW D (TwoDistanceDijkstra.relax_edge v w dist s) := by
  obtain ⟨h1, h2, h3, h4, h5⟩ := h
  have hndD : ((D : ℕ) : WDist) ≤ ((dist + w : ℕ) : WDist) := wcast_le.mpr (by omega)
  have hvtgt_dem : ((dist + w : ℕ) : WDist) < s.d1 v → v ≠ tgt := by
    intro hA hveq
    rw [hveq, h1] at hA
    have hlt : ((dist + w : ℕ) : WDist) < ((D : ℕ) : WDist) := lt_trans hA h3
    exact absurd (lt_of_lt_of_le hlt hndD) (lt_irrefl _)
  have hvtgt_imp : ((dist + w : ℕ) : WDist) < s.d2 v → v ≠ tgt := by
    intro hC hveq
    rw [hveq, h2] at hC
    exact absurd (lt_of_lt_of_le hC hndD) (lt_irrefl _)
  simp only [TwoDistanceDijkstra.relax_edge, TwoDistanceDijkstra.push]
  split_ifs with hA hB hC
  · have hv : v ≠ tgt := hvtgt_dem hA
    refine ⟨?_, ?_, h3, ?_, (secondAbove_of_labels s.d1 s.d2 v (dist + w) h5).1 hA⟩
    · simp only [Function.update_noteq (Ne.symm hv)]
      exact h1
    · simp only [Function.update_noteq (Ne.symm hv)]
      exact h2
    · intro e he
      rcases (List.mem_orderedInsert _).mp he with rfl | he
      · omega
      · exact h4 e he
  · have hv : v ≠ tgt := hvtgt_dem hA
    refine ⟨?_, ?_, h3, ?_, (secondAbove_of_labels s.d1 s.d2 v (dist + w) h5).1 hA⟩
    · simp only [Function.update_noteq (Ne.symm hv)]
      exact h1
    · simp only [Function.update_noteq (Ne.symm hv)]
      exact h2
    · intro e he
      rcases (List.mem_orderedInsert _).mp he with rfl | he
      · -- the demoted secondary entry carries the old d1[v] > dist + w ≥ D
        have hgt : ((dist + w : ℕ) : WDist) < ((WithTop.untop (s.d1 v) hB : ℕ) : WDist) := by
          simp only [Nat.cast_withTop]
          rw [WithTop.coe_untop]
          exact hA
        have : dist + w < WithTop.untop (s.d1 v) hB := wcast_lt.mp hgt
        simp only []
        omega
      · rcases (List.mem_orderedInsert _).mp he with rfl | he
        · omega
        · exact h4 e he
  · have hv : v ≠ tgt := hvtgt_imp hC.2
    refine ⟨h1, ?_, h3, ?_, (secondAbove_of_labels s.d1 s.d2 v (dist + w) h5).2 hC.1⟩
    · simp only [Function.update_noteq (Ne.symm hv)]
      exact h2
    · intro e he
      rcases (List.mem_orderedInsert _).mp he with rfl | he
      · omega
      · exact h4 e he
  · exact ⟨h1, h2, h3, h4, h5⟩

/-- One iteration of the exhaustive Dijkstra loop preserves the
after-break situation. -/
theorem dstep_after (g : Graph) (tgt D : ℕ) (aW : WDist)
    (s : TwoDistanceDijkstra.State) (h : DAfter tgt aW D s) :
    DAfter tgt aW D (TwoDistanceDijkstra.step false g tgt s) := by
  obtain ⟨h1, h2, h3, h4, h5⟩ := h
  by_cases hh : s.halted = true
  · rw [dstep_done_stable false g tgt s (Or.inl hh)]
    exact ⟨h1, h2, h3, h4, h5⟩
  · have hh' : s.halted = false := by
      cases hhc : s.halted
      · rfl
      · exact absurd hhc hh
    cases hpq : s.pq with
    | nil =>
        rw [dstep_done_stable false g tgt s (Or.inr hpq)]
        exact ⟨h1, h2, h3, h4, h5⟩
    | cons e rest =>
        obtain ⟨d, u, sec⟩ := e
        have hdD : D ≤ d := h4 (d, u, sec) (by rw [hpq]; exact List.mem_cons_self _ _)
        have hrest : ∀ e ∈ rest, D ≤ e.1 :=
          fun e he => h4 e (by rw [hpq]; exact List.mem_cons_of_mem _ he)
        simp only [TwoDistanceDijkstra.step, hh', hpq]
        simp only [Bool.false_eq_true, false_and, if_false]
        split_ifs with hs1 hs2 hs3
        · exact ⟨h1, h2, h3, hrest, h5⟩
        · exact ⟨h1, h2, h3, hrest, h5⟩
        · exact foldl_preserves
            (fun (b : TwoDistanceDijkstra.State) (e : ℕ × ℕ) hb =>
              drelax_after tgt 0 D e.1 e.2 d aW b hdD hb) _ _
            ⟨h1, h2, h3, hrest, h5⟩
        · exact ⟨h1, h2, h3, hrest, h5⟩

/-- Claim C3: in `TwoDistanceDijkstra`'s main loop, the search halts at the
first pop of a `(target, SECONDARY)` entry (second conjunct of the final
clause), the distance of that popped entry always equals the live
`d2[target]` at that moment (first conjunct), and stopping there never
changes the returned `(shortest, second_shortest)` pair: whenever the
early-stopping run and the run-to-exhaustion variant both finish, their
final `d1[target]` and `d2[target]` agree. -/
theorem c3_early_termination (g : Graph) (src tgt : ℕ) (f₁ f₂ : ℕ)
    (h₁ : TwoDistanceDijkstra.done
      ((TwoDistanceDijkstra.step true g tgt)^[f₁] (TwoDistanceDijkstra.init src)))
    (h₂ : TwoDistanceDijkstra.done
      ((TwoDistanceDijkstra.step false g tgt)^[f₂] (TwoDistanceDijkstra.init src))) :
    (((TwoDistanceDijkstra.step true g tgt)^[f₁] (TwoDistanceDijkstra.init src)).d1 tgt
        = ((TwoDistanceDijkstra.step false g tgt)^[f₂] (TwoDistanceDijkstra.init src)).d1 tgt
      ∧ ((TwoDistanceDijkstra.step true g tgt)^[f₁] (TwoDistanceDijkstra.init src)).d2 tgt
        = ((TwoDistanceDijkstra.step false g tgt)^[f₂] (TwoDistanceDijkstra.init src)).d2 tgt)
    ∧ (∀ (k d : ℕ) (rest : List TwoDistanceDijkstra.Entry),
        ((TwoDistanceDijkstra.step true g tgt)^[k] (TwoDistanceDijkstra.init src)).halted
            = false →
        ((TwoDistanceDijkstra.step true g tgt)^[k] (TwoDistanceDijkstra.init src)).pq
            = (d, tgt, true) :: rest →
        ((d : ℕ) : WDist)
            = ((TwoDistanceDijkstra.step true g tgt)^[k] (TwoDistanceDijkstra.init src)).d2 tgt
          ∧ ((TwoDistanceDijkstra.step true g tgt)^[k + 1]
              (TwoDistanceDijkstra.init src)).halted = true) := by
  set B := TwoDistanceDijkstra.step true g tgt with hBdef
  set N := TwoDistanceDijkstra.step false g tgt with hNdef
  set s0 := TwoDistanceDijkstra.init src with hs0def
  refine ⟨?_, fun k d rest hh hpq => ⟨dijkstra_break_fresh g src tgt k d rest hh hpq, ?_⟩⟩
  case refine_2 =>
    rw [Function.iterate_succ_apply', hBdef, dstep_break g tgt d rest _ hh hpq]
  by_cases hbp : ∃ k, breakHeadB tgt (B^[k] s0) = true
  · obtain ⟨hh', d, rest, hpq⟩ := breakHeadB_eq_true.mp (Nat.find_spec hbp)
    have hmin : ∀ j, j < Nat.find hbp → breakHeadB tgt (B^[j] s0) = false := by
      intro j hj
      cases hx : breakHeadB tgt (B^[j] s0)
      · rfl
      · exact absurd hx (Nat.find_min hbp hj)
    set k₀ := Nat.find hbp with hk₀def
    have hcouple : ∀ k, k ≤ k₀ → B^[k] s0 = N^[k] s0 := by
      intro k hk
      induction k with
      | zero => rfl
      | succ k ih =>
          rw [Function.iterate_succ_apply', Function.iterate_succ_apply',
            ← ih (by omega), hBdef, hNdef, dstep_true_eq_false g tgt _ (hmin k (by omega))]
    have hfresh : ((d : ℕ) : WDist) = (B^[k₀] s0).d2 tgt :=
      dijkstra_break_fresh g src tgt k₀ d rest hh' hpq
    have hinv := dijkstra_run_inv g src tgt k₀
    have ha : (B^[k₀] s0).d1 tgt < ((d : ℕ) : WDist) := by
      have hlt := hinv.2.1 tgt (by rw [← hfresh]; exact wcast_ne_top d)
      rw [← hfresh] at hlt
      exact hlt
    have hndstar : ¬ TwoDistanceDijkstra.done (B^[k₀] s0) := by
      unfold TwoDistanceDijkstra.done
      push_neg
      refine ⟨by rw [hh']; simp, by rw [hpq]; simp⟩
    have hf₁ : k₀ < f₁ := by
      by_contra hle
      push_neg at hle
      have hfix := iterate_fixed B s0 f₁ (dstep_done_stable true g tgt _ h₁) k₀ hle
      exact hndstar (hfix ▸ h₁)
    have hf₂ : k₀ < f₂ := by
      by_contra hle
      push_neg at hle
      have hfix := iterate_fixed N s0 f₂ (dstep_done_stable false g tgt _ h₂) k₀ hle
      refine hndstar ?_
      rw [hcouple k₀ (le_refl _), hfix]
      exact h₂
    have hBstep := dstep_break g tgt d rest (B^[k₀] s0) hh' hpq
    have hBd1 : (B^[k₀ + 1] s0).d1 = (B^[k₀] s0).d1 := by
      rw [Function.iterate_succ_apply']
      show (TwoDistanceDijkstra.step true g tgt (B^[k₀] s0)).d1 = (B^[k₀] s0).d1
      rw [hBstep]
    have hBd2 : (B^[k₀ + 1] s0).d2 = (B^[k₀] s0).d2 := by
      rw [Function.iterate_succ_apply']
      show (TwoDistanceDijkstra.step true g tgt (B^[k₀] s0)).d2 = (B^[k₀] s0).d2
      rw [hBstep]
    have hBhalt : (B^[k₀ + 1] s0).halted = true := by
      rw [Function.iterate_succ_apply']
      show (TwoDistanceDijkstra.step true g tgt (B^[k₀] s0)).halted = true
      rw [hBstep]
    have hBdone : TwoDistanceDijkstra.done (B^[k₀ + 1] s0) := Or.inl hBhalt
    have hBfin : B^[f₁] s0 = B^[k₀ + 1] s0 :=
      iterate_fixed B s0 (k₀ + 1) (dstep_done_stable true g tgt _ hBdone) f₁ (by omega)
    have hAfter0 : DAfter tgt ((B^[k₀] s0).d1 tgt) d (B^[k₀] s0) := by
      refine ⟨rfl, hfresh.symm, ha, ?_, hinv.2.1⟩
      intro e he
      rw [hpq] at he
      rcases List.mem_cons.mp he with rfl | he
      · exact le_refl _
      · have hsorted := hinv.1
        rw [hpq] at hsorted
        exact entry_le_fst ((List.sorted_cons.mp hsorted).1 e he)
    have hAfterIter : ∀ j, DAfter tgt ((B^[k₀] s0).d1 tgt) d (N^[j] (B^[k₀] s0)) := by
      intro j
      induction j with
      | zero => exact hAfter0
      | succ j ih =>
          rw [Function.iterate_succ_apply', hNdef]
          exact dstep_after g tgt d _ _ ih
    have hNsplit : N^[f₂] s0 = N^[f₂ - k₀] (B^[k₀] s0) := by
      calc N^[f₂] s0 = N^[(f₂ - k₀) + k₀] s0 := by rw [Nat.sub_add_cancel (le_of_lt hf₂)]
        _ = N^[f₂ - k₀] (N^[k₀] s0) := Function.iterate_add_apply N _ _ s0
        _ = N^[f₂ - k₀] (B^[k₀] s0) := by rw [← hcouple k₀ (le_refl _)]
    have hNfin := hAfterIter (f₂ - k₀)
    constructor
    · rw [hBfin, hBd1, hNsplit, hNfin.1]
    · rw [hBfin, hBd2, hNsplit, hNfin.2.1]
      exact hfresh.symm
  · have hbf : ∀ k, breakHeadB tgt (B^[k] s0) = false := by
      intro k
      cases hx : breakHeadB tgt (B^[k] s0)
      · rfl
      · exact absurd ⟨k, hx⟩ hbp
    have hcouple : ∀ k, B^[k] s0 = N^[k] s0 := by
      intro k
      induction k with
      | zero => rfl
      | succ k ih =>
          rw [Function.iterate_succ_apply', Function.iterate_succ_apply', ← ih,
            hBdef, hNdef, dstep_true_eq_false g tgt _ (hbf k)]
    have heq : N^[f₁] s0 = N^[f₂] s0 :=
      iterate_done_agree N TwoDistanceDijkstra.done
        (fun s hs => dstep_done_stable false g tgt s hs) s0 f₁ f₂
        (by rw [← hcouple]; exact h₁) h₂
    rw [hcouple f₁, heq]
    exact ⟨rfl, rfl⟩

/-- Witness for C3 on the graph `gA` with target 3, where the early
termination actually fires: both variants finish within fuel 30 and agree
on the target's labels. -/
theorem c3_early_termination_witness :
    TwoDistanceDijkstra.done
      ((TwoDistanceDijkstra.step true gA 3)^[30] (TwoDistanceDijkstra.init 0))
    ∧ TwoDistanceDijkstra.done
      ((TwoDistanceDijkstra.step false gA 3)^[30] (TwoDistanceDijkstra.init 0))
    ∧ ((TwoDistanceDijkstra.step true gA 3)^[30] (TwoDistanceDijkstra.init 0)).d2 3
        = ((TwoDistanceDijkstra.step false gA 3)^[30] (TwoDistanceDijkstra.init 0)).d2 3 :=
  ⟨by decide, by decide,
    ((c3_early_termination gA 0 3 30 30 (by decide) (by decide)).1).2⟩
